import Mathlib

/-!
Formal model of the `FetchQueue` class (src/src/index.ts, the node-fetch
variant with `#`-private fields).  The class wraps a fetch capability and
gates calls through an admission counter (`#activeRequests` vs
`#concurrent`), a keyed pending store (`#queue` / `#queueKeys`), a pause
flag, queuing patterns, pre-fetch hooks and a key builder.

The embedding is a small-step model: synchronous code between `await`
points is modelled by pure functions on a `Sys` state, and the suspension
points (awaiting the underlying fetch, awaiting the pre-hooks) become
separate steps of a transition relation.  Model-level bookkeeping that has
no counterpart in the source (arrival stamps, the event log, the list of
suspended executions) is kept in clearly marked fields and never feeds
back into the translated control flow.
-/

namespace Fetchq

/-!
JSON-style values model the objects that `#keyBuilder` walks
(`{ url, options }`) and the nested request-key object it builds.
`jundefined` models JavaScript `undefined` (a missing property), which
`JSON.stringify` drops, while `jnull` is JSON `null`.  Object fields are a
mutually inductive list so that all functions below are structurally
recursive and computable.
-/
mutual
/-- A JavaScript value as far as the key builder is concerned. -/
inductive JVal where
  | jundefined
  | jnull
  | jstr (s : String)
  | jobj (fields : JFields)
deriving Repr
/-- Object fields, in insertion order. -/
inductive JFields where
  | fnil
  | fcons (k : String) (v : JVal) (rest : JFields)
deriving Repr
end

/-- Field lookup in an object, leftmost binding first. -/
def JFields.find : JFields → String → Option JVal
  | .fnil, _ => none
  | .fcons k' v rest, k => if k' == k then some v else rest.find k

/-- Truthiness of a `JVal` under JavaScript coercion rules: objects are
truthy, strings are truthy unless empty, `null` and `undefined` are falsy. -/
def JVal.truthy : JVal → Bool
  | .jundefined => false
  | .jnull => false
  | .jstr s => !(s == "")
  | .jobj _ => true

/-- Property lookup `obj[k]` on a `JVal`: a missing key of an object gives
`undefined`; property access on non-objects is modelled as `undefined`
(it is only reached behind the truthiness guard below). -/
def JVal.get (v : JVal) (k : String) : JVal :=
  match v with
  | .jobj fs => (fs.find k).getD .jundefined
  | _ => .jundefined

/-- One step of the value-walking reduce in `#keyBuilder`:
`(obj, k) => (obj ? obj?.[k] : null)`. -/
def jsStep (obj : JVal) (k : String) : JVal :=
  if obj.truthy then obj.get k else .jnull

/-- The value of a dotted field path on the parameters object, mirroring
`nestedKeys.reduce((obj, k) => (obj ? obj?.[k] : null), parameters)`. -/
def getPath (parameters : JVal) (ks : List String) : JVal :=
  ks.foldl jsStep parameters

/-- Object update `acc[k] = v`: replaces the binding in place when the key
exists (JavaScript objects keep the original insertion position) and
appends it otherwise. -/
def jset : JFields → String → JVal → JFields
  | .fnil, k, v => .fcons k v .fnil
  | .fcons k' v' rest, k, v =>
      if k' == k then .fcons k' v rest else .fcons k' v' (jset rest k v)

/-- The key-building reduce of `#keyBuilder`:
`acc[curr] = index === nestedLength - 1 ? value : {}` walks the path,
unconditionally replacing every intermediate node with a fresh `{}` (so a
later path clobbers structure built by an earlier one that shares a
prefix) and writing `value` at the leaf. -/
def assignPath : JVal → List String → JVal → JVal
  | .jobj fs, [k], v => .jobj (jset fs k v)
  | .jobj fs, k :: k2 :: rest, v =>
      .jobj (jset fs k (assignPath (.jobj .fnil) (k2 :: rest) v))
  | root, _, _ => root

/-- Splitting a dotted field path, `key?.split(".")`: returns the (never
empty) list of segments, keeping empty segments like JavaScript's
`String.split`.  Implemented on the character list so that it reduces
definitionally. -/
def splitDots (s : String) : List String :=
  go s.data []
where
  /-- Walk the characters, accumulating the current segment reversed. -/
  go : List Char → List Char → List String
  | [], acc => [String.mk acc.reverse]
  | c :: rest, acc =>
      if c = '.' then String.mk acc.reverse :: go rest [] else go rest (c :: acc)

/-- The request-key object built by `#keyBuilder` before serialization:
a fold of `assignPath`/`getPath` over the configured field paths, starting
from the empty object `requestKey = {}`. -/
def keyBuilderVal (params : List String) (parameters : JVal) : JVal :=
  params.foldl
    (fun acc key =>
      let ks := splitDots key
      assignPath acc ks (getPath parameters ks))
    (.jobj .fnil)

/-!
Serialization in the style of `JSON.stringify`: object fields whose
value is `undefined` are dropped, `null` prints as `null`, and strings are
quoted (the keys the source builds contain no characters that would need
escaping).
-/
mutual
/-- Serialize a value like `JSON.stringify`. -/
def JVal.stringify : JVal → String
  | .jundefined => "undefined"
  | .jnull => "null"
  | .jstr s => "\"" ++ s ++ "\""
  | .jobj fs => "\x7b" ++ String.intercalate "," (JFields.stringifyList fs) ++ "\x7d"
/-- Serialize the defined (non-`undefined`) fields of an object. -/
def JFields.stringifyList : JFields → List String
  | .fnil => []
  | .fcons k v rest =>
      match v with
      | .jundefined => JFields.stringifyList rest
      | _ => ("\"" ++ k ++ "\":" ++ JVal.stringify v) :: JFields.stringifyList rest
end

/-- The string request key, `JSON.stringify(requestKey)` in `#keyBuilder`. -/
def keyBuilder (params : List String) (parameters : JVal) : String :=
  JVal.stringify (keyBuilderVal params parameters)

/-- Reading `JSON.parse(requestKey).url` in `emptyQueue`, applied to the
key object whose serialization is the stored key (parsing the serialized
key recovers exactly its `undefined`-stripped fields). -/
def keyUrl : JVal → Option String
  | .jobj fs =>
      match fs.find "url" with
      | some (.jstr u) => some u
      | _ => none
  | _ => none

/-- A call to the wrapped fetch: the target URL (a string `RequestInfo`)
and the `options` object, `jundefined` when the caller passed none. -/
structure Request where
  url : String
  options : JVal := .jundefined

/-- The `parameters` object `{ url, options }` handed to `#keyBuilder`. -/
def parametersOf (req : Request) : JVal :=
  .jobj (.fcons "url" (.jstr req.url) (.fcons "options" req.options .fnil))

/-- A `pre` entry's pattern: a single RegExp or an array of RegExps,
each modelled by its `test` predicate on the URL string. -/
inductive PrePattern where
  | single (p : String → Bool)
  | plist (ps : List (String → Bool))

/-- One pre-fetch hook configuration.  The hook itself is modelled as a
pure function from the request's target and options to a settlement
(`ok` for a fulfilled hook promise, `error` for a rejection/throw). -/
structure PreRule where
  pattern : PrePattern
  hook : String → JVal → Except String Unit

/-- The `matchFailed` computation of `#executePre`: a lone RegExp fails
when its test fails, an array fails when no member RegExp test succeeds. -/
def matchFailed (pp : PrePattern) (url : String) : Bool :=
  match pp with
  | .single p => !(p url)
  | .plist ps => !(ps.any fun p => p url)

/-- How an execution settles, as observed by a caller. -/
inductive Outcome where
  | success
  | failure (msg : String)
deriving Repr, DecidableEq

/-- Observable events of a run, recorded by the model in program order:
counter increments and decrements, the underflow warning of `#run`'s
`finally` block, calls issued to the underlying fetch capability, pre-hook
invocations (by index into `pre`), and settlements delivered to callers
(`callers` is the fan-out width of the settled execution). -/
inductive Event where
  | incr
  | decr
  | warnNegative
  | fetchCall (url : String)
  | hookInvoked (idx : Nat) (url : String)
  | settled (url : String) (outcome : Outcome) (callers : Nat)
deriving Repr, DecidableEq

/-- A pending entry of `#queue`: `aborted` is the `AbortController`'s
signal state, `req` the url/options captured by the stored `promise`
thunk, `keyVal` the key object whose serialization indexes the entry, and
`callers` the number of callers attached to its resolve/reject chain.
`stamp` is model bookkeeping: the arrival index of the entry's first
insertion, used to state ordering properties. -/
structure Entry where
  stamp : Nat
  aborted : Bool
  req : Request
  keyVal : JVal
  callers : Nat

/-- Where a suspended execution of `#run` is parked: awaiting the
`Promise.all` of its pre-hooks, or awaiting the underlying fetch. -/
inductive Phase where
  | hooks
  | net
deriving Repr, DecidableEq

/-- Model bookkeeping for one execution of `#run` that has passed its
increment and is suspended at an `await`.  `hookResult` is the settlement
the pre-hook `Promise.all` will deliver (computed at invocation time,
since hooks are modelled as pure functions). -/
structure Exec where
  req : Request
  callers : Nat
  hookResult : Except String Unit
  phase : Phase

/-- The full state: the private fields of a `FetchQueue` instance
(`concurrent`, `pauseQueue`, `activeRequests`, `queue`, `queueKeys`,
`pre`, `queuingPatterns`, `keyBuilderParams`) plus model bookkeeping
(`execs`, `nextStamp`, `events`).  `queue = none` is the source's
`undefined`. -/
structure Sys where
  concurrent : Int
  pauseQueue : Bool
  activeRequests : Int
  queue : Option (List (String × Entry))
  queueKeys : List String
  pre : List PreRule
  queuingPatterns : List (String → Bool)
  keyBuilderParams : List String
  execs : List Exec
  nextStamp : Nat
  events : List Event

/-- Append an event to the log. -/
def log (s : Sys) (e : Event) : Sys := {s with events := s.events ++ [e]}

/-- Lookup `#queue[key]`. -/
def qlookup (q : List (String × Entry)) (k : String) : Option Entry :=
  (q.find? (fun kv => kv.1 == k)).map (·.2)

/-- Deletion `delete #queue[key]`. -/
def qdelete (q : List (String × Entry)) (k : String) : List (String × Entry) :=
  q.eraseP (fun kv => kv.1 == k)

/-- The key list `Object.keys(#queue)`, in insertion order. -/
def keysOf (q : List (String × Entry)) : List String := q.map (·.1)

/-- The guarded decrement of `#run`'s `finally` block:
`if (#activeRequests === 0) console.warn(...) else #activeRequests--`. -/
def guardedDecr (s : Sys) : Sys :=
  if s.activeRequests = 0 then log s .warnNegative
  else log {s with activeRequests := s.activeRequests - 1} .decr

/-- The effect of `#executePre(url, options)`: every rule whose pattern
matches is invoked (`Promise.all` runs the `map` body for all rules
before awaiting, so siblings are not cancelled by a failure), and the
awaited result is the first failure among the matching hooks in rule
order, or success when all fulfil. -/
def executePreResult (pre : List PreRule) (url : String) (options : JVal) :
    List Event × Except String Unit :=
  let matched := pre.enum.filter fun ir => !(matchFailed ir.2.pattern url)
  (matched.map fun ir => Event.hookInvoked ir.1 url,
   matched.foldl
     (fun acc ir =>
       match acc with
       | .error e => .error e
       | .ok _ => ir.2.hook url options)
     (.ok ()))

/-- The two synchronous code blocks that can recurse into each other:
`.run req aborted callers` is the synchronous prefix of
`#run(url, options, controller)` (through the abort check, the increment,
the pre-hook kickoff or the fetch call, and — on the abort throw — the
whole synchronous `finally` block), and `.emit` is
`#emitRequestCompletedEvent`.  An aborted `#run` throws before any
`await`, so its `finally` runs synchronously and re-enters the emitter;
that is the only recursion, and the fuel (always ample, see the wrappers)
only bounds it. -/
inductive Call where
  | run (req : Request) (aborted : Bool) (callers : Nat)
  | emit

/-- One synchronous cascade.  Faithfully mirrors the statement order of
`#run` and `#emitRequestCompletedEvent`, including: abort is checked
before the increment; the emitter shifts `#queueKeys` and invokes the
entry's thunk before deleting it from `#queue`; and the store is reset to
`undefined` when either the key list or the object becomes empty. -/
def engine : Nat → Call → Sys → Sys
  | fuel, .run req aborted callers, s =>
    if aborted then
      let s1 := log s (.settled req.url (.failure "Aborted") callers)
      let s2 := guardedDecr s1
      match fuel with
      | 0 => s2
      | f + 1 => engine f .emit s2
    else
      let s1 := log {s with activeRequests := s.activeRequests + 1} .incr
      if s1.pre.isEmpty then
        let s2 := log s1 (.fetchCall req.url)
        {s2 with execs := s2.execs ++ [⟨req, callers, .ok (), .net⟩]}
      else
        let pr := executePreResult s1.pre req.url req.options
        {s1 with events := s1.events ++ pr.1,
                 execs := s1.execs ++ [⟨req, callers, pr.2, .hooks⟩]}
  | fuel, .emit, s =>
    match s.queue with
    | none => s
    | some q =>
      match s.queueKeys with
      | [] => s
      | requestKey :: restKeys =>
        if s.pauseQueue then s
        else
          match qlookup q requestKey with
          | none => s
          | some e =>
            let s1 :=
              match fuel with
              | 0 => {s with queueKeys := restKeys}
              | f + 1 =>
                  engine f (.run e.req e.aborted e.callers) {s with queueKeys := restKeys}
            let s2 := {s1 with queue := s1.queue.map (fun q2 => qdelete q2 requestKey)}
            if s2.queueKeys.isEmpty then {s2 with queue := none}
            else
              match s2.queue with
              | none => s2
              | some q2 => if q2.isEmpty then {s2 with queue := none} else s2

/-- Invoking a stored or fresh task, `() => this.#run(url, options,
controller)`.  Each nesting level of the cascade removes a pending entry,
so `2 * length + 2` fuel is never exhausted. -/
def runTask (s : Sys) (req : Request) (aborted : Bool) (callers : Nat) : Sys :=
  engine (2 * s.queueKeys.length + 2) (.run req aborted callers) s

/-- `#emitRequestCompletedEvent()`. -/
def emitRequestCompletedEvent (s : Sys) : Sys :=
  engine (2 * s.queueKeys.length + 2) .emit s

/-- The `bypassQueue` computation of `#f_fetch`: patterns exist and none
of them matches the target. -/
def bypassQueueOf (s : Sys) (req : Request) : Bool :=
  (!s.queuingPatterns.isEmpty) && !(s.queuingPatterns.any fun p => p req.url)

/-- The key object built for a deferred request. -/
def requestKeyValOf (s : Sys) (req : Request) : JVal :=
  keyBuilderVal s.keyBuilderParams (parametersOf req)

/-- The string key under which a deferred request is stored. -/
def requestKeyOf (s : Sys) (req : Request) : String :=
  JVal.stringify (requestKeyValOf s req)

/-- The defer path of `#f_fetch` (the promise executor): widen the
settlement fan-out of an entry already stored under the same key (the new
thunk and fresh controller replace the stored ones, at the same position,
and the new resolve/reject handlers chain onto the previous ones), or
append a new entry; either way `#queueKeys` is recomputed as
`Object.keys(#queue)`. -/
def enqueueTask (s : Sys) (req : Request) : Sys :=
  let keyVal := requestKeyValOf s req
  let requestKey := JVal.stringify keyVal
  let q := s.queue.getD []
  if s.queueKeys.contains requestKey && (qlookup q requestKey).isSome then
    let q' := q.map fun kv =>
      (kv.1,
       if kv.1 == requestKey then
         { kv.2 with aborted := false, req := req, keyVal := keyVal,
                     callers := kv.2.callers + 1 }
       else kv.2)
    {s with queue := some q', queueKeys := keysOf q'}
  else
    let q' := q ++ [(requestKey, ⟨s.nextStamp, false, req, keyVal, 1⟩)]
    {s with queue := some q', queueKeys := keysOf q', nextStamp := s.nextStamp + 1}

/-- `#f_fetch(url, options)`: evaluate the queuing patterns, execute
immediately when there is bandwidth and the queue is not paused (or the
request bypasses the queue), otherwise defer under the built request
key. -/
def f_fetch (s : Sys) (req : Request) : Sys :=
  if (decide (s.activeRequests < s.concurrent) && !s.pauseQueue) || bypassQueueOf s req then
    runTask s req false 1
  else
    enqueueTask s req

/-- Remove the suspended execution at index `i` (model bookkeeping). -/
def removeExec (s : Sys) (i : Nat) : Sys := {s with execs := s.execs.eraseIdx i}

/-- The `finally` block of `#run` for an execution that reached an
`await`: guarded decrement, then the completion emitter. -/
def settleFinally (s : Sys) : Sys := emitRequestCompletedEvent (guardedDecr s)

/-- The underlying fetch of the `i`-th suspended execution settles with
`outcome`: the caller(s) observe it, and the `finally` block runs. -/
def netSettle (s : Sys) (i : Nat) (outcome : Outcome) : Sys :=
  match s.execs[i]? with
  | some e =>
      if e.phase = .net then
        settleFinally (removeExec (log s (.settled e.req.url outcome e.callers)) i)
      else s
  | none => s

/-- The pre-hook `Promise.all` of the `i`-th suspended execution settles:
on fulfilment the underlying fetch is issued and the execution moves to
the `net` phase; on rejection the request settles with the hook's failure
without a fetch call, and the `finally` block runs. -/
def hookResolve (s : Sys) (i : Nat) : Sys :=
  match s.execs[i]? with
  | some e =>
      if e.phase = .hooks then
        match e.hookResult with
        | .ok _ =>
            let s1 := log s (.fetchCall e.req.url)
            {s1 with execs := s1.execs.set i {e with phase := .net}}
        | .error m =>
            settleFinally (removeExec (log s (.settled e.req.url (.failure m) e.callers)) i)
      else s
  | none => s

/-- `pauseQueue()`: sets the flag and resets `#activeRequests` to zero. -/
def pauseQueueOp (s : Sys) : Sys := {s with pauseQueue := true, activeRequests := 0}

/-- `startQueue()`: clears the flag and triggers one emitter cycle. -/
def startQueueOp (s : Sys) : Sys :=
  emitRequestCompletedEvent {s with pauseQueue := false}

/-- `setConcurrent(concurrent)`: a bare assignment, with no validation. -/
def setConcurrentOp (s : Sys) (concurrent : Int) : Sys :=
  {s with concurrent := concurrent}

/-- `getConcurrent()`. -/
def getConcurrent (s : Sys) : Int := s.concurrent

/-- `getQueueLength()`: `Object.keys(this.#queue || {}).length`. -/
def getQueueLength (s : Sys) : Nat := (s.queue.getD []).length

/-- `getActiveRequests()`. -/
def getActiveRequests (s : Sys) : Int := s.activeRequests

/-- The body of `emptyQueue`'s `for (const requestKey of this.#queueKeys)`
loop.  The iterator holds the live array: the cascade started by an
aborted entry's synchronous settlement shifts `#queueKeys` while the loop
runs, which is modelled — exactly as in the engine — by indexing the
current `queueKeys` with the iterator position `i`.  The two `none`
branches mirror states in which the source would throw a `TypeError`
(`#queue` undefined, or the key missing); they are unreachable because the
key list always lists exactly the keys of the store.  A missing or
non-string `url` field of a parsed key would also throw in the source
(`url.match` on `undefined`); it is modelled as not aborting and is
likewise unreachable under the default key-builder parameters. -/
def emptyQueueLoop : Nat → Option (String → Bool) → Nat → Sys → Sys
  | 0, _, _, s => s
  | fuel + 1, urlPattern, i, s =>
    if i < s.queueKeys.length then
      let requestKey := s.queueKeys.getD i ""
      match s.queue with
      | none => s
      | some q =>
        match qlookup q requestKey with
        | none => s
        | some e =>
          let url := keyUrl e.keyVal
          let doAbort :=
            match urlPattern, url with
            | none, _ => true
            | some p, some u => p u
            | some _, none => false
          let e' := if doAbort then {e with aborted := true} else e
          let q' := q.map fun kv => (kv.1, if kv.1 == requestKey then e' else kv.2)
          let s1 := if doAbort then {s with queue := some q'} else s
          let s2 := runTask s1 e'.req e'.aborted e'.callers
          emptyQueueLoop fuel urlPattern (i + 1) s2
    else s

/-- `emptyQueue(urlPattern?)`: abort the matching entries (all of them
when no pattern is given) and invoke every visited entry's stored thunk,
then clear the store and the key list.  The iterator position advances by
one per visited key while the cascade may shrink the array, so the
initial length bounds the number of iterations and the fuel is ample. -/
def emptyQueue (s : Sys) (urlPattern : Option (String → Bool)) : Sys :=
  match s.queue with
  | none => s
  | some _ =>
      let s' := emptyQueueLoop (s.queueKeys.length + 1) urlPattern 0 s
      {s' with queue := none, queueKeys := []}

/-- The constructor configuration (`FetchQueueConfig`), every field
optional like the TypeScript optional members. -/
structure FetchQueueConfig where
  concurrent : Option Int := none
  pauseQueueOnInit : Option Bool := none
  pre : Option (List PreRule) := none
  queuingPatterns : Option (List (String → Bool)) := none
  keyBuilderParams : Option (List String) := none

/-- The default key-builder field paths. -/
def defaultKeyBuilderParams : List String := ["url", "options.method", "options.body"]

/-- The constructor.  `options?.concurrent || 3` makes a supplied `0`
fall back to the default 3 (JavaScript falsiness), and the validation
`typeof !== "number" || <= 0` then throws only for the remaining
non-positive values.  The `typeof` disjunct cannot fail in this typed
model; a non-integral `number` is outside the integer embedding. -/
def FetchQueue.make (options : Option FetchQueueConfig) : Except String Sys :=
  let concurrent : Int :=
    match options.bind (·.concurrent) with
    | none => 3
    | some c => if c = 0 then 3 else c
  if concurrent ≤ 0 then
    .error "Concurrent should be a number greater than zero."
  else
    .ok { concurrent := concurrent
        , pauseQueue := (options.bind (·.pauseQueueOnInit)).getD false
        , activeRequests := 0
        , queue := none
        , queueKeys := []
        , pre := (options.bind (·.pre)).getD []
        , queuingPatterns := (options.bind (·.queuingPatterns)).getD []
        , keyBuilderParams := (options.bind (·.keyBuilderParams)).getD defaultKeyBuilderParams
        , execs := []
        , nextStamp := 0
        , events := [] }

/-- Number of calls issued to the underlying fetch capability that have
not yet settled: the executions suspended at the fetch `await`. -/
def netCount (s : Sys) : Nat :=
  (s.execs.filter fun e => e.phase = .net).length

/-- One interleaving step: a caller invokes the wrapped fetch, a pre-hook
`Promise.all` or an underlying fetch settles, or the embedding application
calls one of the public mutating methods. -/
inductive Step : Sys → Sys → Prop where
  | fetch {s : Sys} (req : Request) : Step s (f_fetch s req)
  | hookRes {s : Sys} (i : Nat) : Step s (hookResolve s i)
  | netRes {s : Sys} (i : Nat) (o : Outcome) : Step s (netSettle s i o)
  | pause {s : Sys} : Step s (pauseQueueOp s)
  | start {s : Sys} : Step s (startQueueOp s)
  | setConc {s : Sys} (n : Int) : Step s (setConcurrentOp s n)
  | empty {s : Sys} (p : Option (String → Bool)) : Step s (emptyQueue s p)

/-- States reachable from a freshly constructed queue under arbitrary
interleavings of all operations. -/
inductive Reach (cfg : Option FetchQueueConfig) : Sys → Prop where
  | init {s : Sys} (h : FetchQueue.make cfg = .ok s) : Reach cfg s
  | step {s t : Sys} (hs : Reach cfg s) (hst : Step s t) : Reach cfg t

/-- The steps of plain operation: request starts and settlements only
(no pause/resume, no reconfiguration, no force-drain). -/
inductive CoreStep : Sys → Sys → Prop where
  | fetch {s : Sys} (req : Request) : CoreStep s (f_fetch s req)
  | hookRes {s : Sys} (i : Nat) : CoreStep s (hookResolve s i)
  | netRes {s : Sys} (i : Nat) (o : Outcome) : CoreStep s (netSettle s i o)

/-- States reachable using only request starts and settlements. -/
inductive CoreReach (cfg : Option FetchQueueConfig) : Sys → Prop where
  | init {s : Sys} (h : FetchQueue.make cfg = .ok s) : CoreReach cfg s
  | step {s t : Sys} (hs : CoreReach cfg s) (hst : CoreStep s t) : CoreReach cfg t

/-!
Characterization lemmas for the synchronous cascade.  Under the store
well-formedness that all reachable states enjoy (the key list mirrors the
store and no stored entry is aborted), the cascade has depth at most one:
a released entry is never aborted, so its `#run` stops at its first
`await` instead of re-entering the emitter.
-/

/-- A non-aborted `#run` increments, kicks off its pre-hooks or issues the
fetch, and suspends; it never re-enters the emitter, so the fuel is
irrelevant and the state change is explicit. -/
theorem engine_run_notAborted (fuel : Nat) (req : Request) (callers : Nat) (s : Sys) :
    engine fuel (.run req false callers) s =
      if s.pre.isEmpty then
        { s with activeRequests := s.activeRequests + 1,
                 events := s.events ++ [.incr, .fetchCall req.url],
                 execs := s.execs ++ [⟨req, callers, .ok (), .net⟩] }
      else
        { s with activeRequests := s.activeRequests + 1,
                 events := s.events ++ [.incr] ++ (executePreResult s.pre req.url req.options).1,
                 execs := s.execs ++
                   [⟨req, callers, (executePreResult s.pre req.url req.options).2, .hooks⟩] } := by
  by_cases hpre : s.pre.isEmpty <;>
    simp [engine, log, hpre, List.append_assoc]

/-- The emitter does nothing when the store is `undefined`, the key list
is empty, or the queue is paused. -/
theorem engine_emit_stutter (fuel : Nat) (s : Sys)
    (h : s.queue = none ∨ s.queueKeys = [] ∨ s.pauseQueue = true) :
    engine fuel .emit s = s := by
  rcases h with h | h | h
  · simp [engine, h]
  · cases hq : s.queue <;> simp [engine, hq, h]
  · cases hq : s.queue <;> cases hk : s.queueKeys <;> simp [engine, hq, hk, h]

/-- One-step unfolding of the emitter at exhausted fuel, under explicit
hypotheses for its guards. -/
theorem engine_emit_zero (s : Sys) (q : List (String × Entry)) (k : String)
    (rest : List String) (e : Entry)
    (hq : s.queue = some q) (hk : s.queueKeys = k :: rest)
    (hp : s.pauseQueue = false) (hl : qlookup q k = some e) :
    engine 0 .emit s =
      (let s1 : Sys := {s with queueKeys := rest}
       let s2 : Sys := {s1 with queue := s1.queue.map (fun q2 => qdelete q2 k)}
       if s2.queueKeys.isEmpty then {s2 with queue := none}
       else
         match s2.queue with
         | none => s2
         | some q2 => if q2.isEmpty then {s2 with queue := none} else s2) := by
  conv_lhs => rw [engine]
  rw [hq, hk, hp]
  simp only [hl]
  simp

/-- One-step unfolding of the emitter with fuel to spare, under explicit
hypotheses for its guards. -/
theorem engine_emit_succ (n : Nat) (s : Sys) (q : List (String × Entry)) (k : String)
    (rest : List String) (e : Entry)
    (hq : s.queue = some q) (hk : s.queueKeys = k :: rest)
    (hp : s.pauseQueue = false) (hl : qlookup q k = some e) :
    engine (n + 1) .emit s =
      (let s1 := engine n (.run e.req e.aborted e.callers) {s with queueKeys := rest}
       let s2 : Sys := {s1 with queue := s1.queue.map (fun q2 => qdelete q2 k)}
       if s2.queueKeys.isEmpty then {s2 with queue := none}
       else
         match s2.queue with
         | none => s2
         | some q2 => if q2.isEmpty then {s2 with queue := none} else s2) := by
  conv_lhs => rw [engine]
  rw [hq, hk, hp]
  simp only [hl]
  simp

/-- An aborted `#run` at exhausted fuel: the throw, the guarded
decrement; the re-entry into the emitter is cut off. -/
theorem engine_run_aborted_zero (req : Request) (callers : Nat) (s : Sys) :
    engine 0 (.run req true callers) s =
      guardedDecr (log s (.settled req.url (.failure "Aborted") callers)) := by
  conv_lhs => rw [engine]
  simp

/-- An aborted `#run`: the throw happens before the increment, and the
synchronous `finally` block performs the guarded decrement and re-enters
the emitter. -/
theorem engine_run_aborted_succ (n : Nat) (req : Request) (callers : Nat) (s : Sys) :
    engine (n + 1) (.run req true callers) s =
      engine n .emit (guardedDecr (log s (.settled req.url (.failure "Aborted") callers))) := by
  conv_lhs => rw [engine]
  simp

/-- The emitter stutters when the shifted key has no entry in the store
(the source would throw a `TypeError` here; unreachable, since the key
list always lists exactly the keys of the store). -/
theorem engine_emit_lookupNone (fuel : Nat) (s : Sys) (q : List (String × Entry))
    (k : String) (rest : List String)
    (hq : s.queue = some q) (hk : s.queueKeys = k :: rest)
    (hp : s.pauseQueue = false) (hl : qlookup q k = none) :
    engine fuel .emit s = s := by
  conv_lhs => rw [engine]
  rw [hq, hk, hp]
  simp [hl]

/-- Releasing a non-aborted head entry: the emitter shifts the key list,
runs the entry's thunk (which suspends at its first `await`), deletes the
entry, and resets the store to `undefined` when it became empty. -/
theorem engine_emit_release (fuel : Nat) (s : Sys) (k : String) (e : Entry)
    (qt : List (String × Entry))
    (hq : s.queue = some ((k, e) :: qt))
    (hkeys : s.queueKeys = k :: keysOf qt)
    (hab : e.aborted = false)
    (hp : s.pauseQueue = false) :
    engine (fuel + 1) .emit s =
      if s.pre.isEmpty then
        { s with queue := if qt.isEmpty then none else some qt,
                 queueKeys := keysOf qt,
                 activeRequests := s.activeRequests + 1,
                 events := s.events ++ [.incr, .fetchCall e.req.url],
                 execs := s.execs ++ [⟨e.req, e.callers, .ok (), .net⟩] }
      else
        { s with queue := if qt.isEmpty then none else some qt,
                 queueKeys := keysOf qt,
                 activeRequests := s.activeRequests + 1,
                 events := s.events ++ [.incr] ++
                   (executePreResult s.pre e.req.url e.req.options).1,
                 execs := s.execs ++
                   [⟨e.req, e.callers,
                     (executePreResult s.pre e.req.url e.req.options).2, .hooks⟩] } := by
  have hlook : qlookup ((k, e) :: qt) k = some e := by
    simp [qlookup, List.find?_cons]
  conv_lhs => rw [engine]
  rw [hq, hkeys, hp]
  simp only [hlook]
  rw [hab, engine_run_notAborted]
  by_cases hpre : s.pre.isEmpty <;>
    cases qt <;>
      simp [hpre, keysOf, qdelete, List.eraseP_cons, log, List.append_assoc]

/-- Logging does not change the counter. -/
@[simp] theorem log_activeRequests (s : Sys) (e : Event) :
    (log s e).activeRequests = s.activeRequests := rfl

/-- Logging does not change the store. -/
@[simp] theorem log_queue (s : Sys) (e : Event) : (log s e).queue = s.queue := rfl

/-- Logging does not change the key list. -/
@[simp] theorem log_queueKeys (s : Sys) (e : Event) :
    (log s e).queueKeys = s.queueKeys := rfl

/-- Logging does not change the pause flag. -/
@[simp] theorem log_pauseQueue (s : Sys) (e : Event) :
    (log s e).pauseQueue = s.pauseQueue := rfl

/-- The guarded decrement touches only the counter and the log. -/
@[simp] theorem guardedDecr_queue (s : Sys) : (guardedDecr s).queue = s.queue := by
  unfold guardedDecr; split <;> rfl

/-- The guarded decrement does not change the key list. -/
@[simp] theorem guardedDecr_queueKeys (s : Sys) :
    (guardedDecr s).queueKeys = s.queueKeys := by
  unfold guardedDecr; split <;> rfl

/-- The guarded decrement does not change the pause flag. -/
@[simp] theorem guardedDecr_pauseQueue (s : Sys) :
    (guardedDecr s).pauseQueue = s.pauseQueue := by
  unfold guardedDecr; split <;> rfl

/-- The guarded decrement never drives the counter below zero. -/
theorem guardedDecr_nonneg (s : Sys) (h : 0 ≤ s.activeRequests) :
    0 ≤ (guardedDecr s).activeRequests := by
  unfold guardedDecr
  split
  · simpa using h
  · simp only [log_activeRequests]
    omega

/-- No cascade of the engine, whatever its entry point, can drive the
counter below zero: the only decrements are guarded. -/
theorem engine_active_nonneg (fuel : Nat) (c : Call) (s : Sys)
    (h : 0 ≤ s.activeRequests) : 0 ≤ (engine fuel c s).activeRequests := by
  induction fuel generalizing c s with
  | zero =>
      cases c with
      | run req ab callers =>
          cases ab
          · rw [engine_run_notAborted]
            split <;> simp <;> omega
          · rw [engine_run_aborted_zero]
            exact guardedDecr_nonneg _ (by simpa using h)
      | emit =>
          rcases hq : s.queue with _ | q
          · rw [engine_emit_stutter _ _ (Or.inl hq)]; exact h
          · rcases hk : s.queueKeys with _ | ⟨k, rest⟩
            · rw [engine_emit_stutter _ _ (Or.inr (Or.inl hk))]; exact h
            · by_cases hp : s.pauseQueue
              · rw [engine_emit_stutter _ _ (Or.inr (Or.inr hp))]; exact h
              · rcases hl : qlookup q k with _ | e
                · rw [engine_emit_lookupNone _ s q k rest hq hk
                    (by simpa using hp) hl]
                  exact h
                · rw [engine_emit_zero s q k rest e hq hk
                    (by simpa using hp) hl]
                  simp only []
                  split
                  · simpa using h
                  · split
                    · simpa using h
                    · split <;> simpa using h
  | succ n ih =>
      cases c with
      | run req ab callers =>
          cases ab
          · rw [engine_run_notAborted]
            split <;> simp <;> omega
          · rw [engine_run_aborted_succ]
            exact ih _ _ (guardedDecr_nonneg _ (by simpa using h))
      | emit =>
          rcases hq : s.queue with _ | q
          · rw [engine_emit_stutter _ _ (Or.inl hq)]; exact h
          · rcases hk : s.queueKeys with _ | ⟨k, rest⟩
            · rw [engine_emit_stutter _ _ (Or.inr (Or.inl hk))]; exact h
            · by_cases hp : s.pauseQueue
              · rw [engine_emit_stutter _ _ (Or.inr (Or.inr hp))]; exact h
              · rcases hl : qlookup q k with _ | e
                · rw [engine_emit_lookupNone _ s q k rest hq hk
                    (by simpa using hp) hl]
                  exact h
                · rw [engine_emit_succ n s q k rest e hq hk
                    (by simpa using hp) hl]
                  have h1 : 0 ≤ (engine n (.run e.req e.aborted e.callers)
                      {s with queueKeys := rest}).activeRequests :=
                    ih _ _ (by simpa using h)
                  simp only []
                  split
                  · simpa using h1
                  · split
                    · simpa using h1
                    · split <;> simpa using h1

/-- Wrapper form of the stutter lemma. -/
theorem emitRCE_stutter (s : Sys)
    (h : s.queue = none ∨ s.queueKeys = [] ∨ s.pauseQueue = true) :
    emitRequestCompletedEvent s = s :=
  engine_emit_stutter _ _ h

/-- Wrapper form of the release lemma. -/
theorem emitRCE_release (s : Sys) (k : String) (e : Entry)
    (qt : List (String × Entry))
    (hq : s.queue = some ((k, e) :: qt))
    (hkeys : s.queueKeys = k :: keysOf qt)
    (hab : e.aborted = false)
    (hp : s.pauseQueue = false) :
    emitRequestCompletedEvent s =
      if s.pre.isEmpty then
        { s with queue := if qt.isEmpty then none else some qt,
                 queueKeys := keysOf qt,
                 activeRequests := s.activeRequests + 1,
                 events := s.events ++ [.incr, .fetchCall e.req.url],
                 execs := s.execs ++ [⟨e.req, e.callers, .ok (), .net⟩] }
      else
        { s with queue := if qt.isEmpty then none else some qt,
                 queueKeys := keysOf qt,
                 activeRequests := s.activeRequests + 1,
                 events := s.events ++ [.incr] ++
                   (executePreResult s.pre e.req.url e.req.options).1,
                 execs := s.execs ++
                   [⟨e.req, e.callers,
                     (executePreResult s.pre e.req.url e.req.options).2, .hooks⟩] } := by
  show engine (2 * s.queueKeys.length + 2) .emit s = _
  have h2 : 2 * s.queueKeys.length + 2 = (2 * s.queueKeys.length + 1) + 1 := rfl
  rw [h2]
  exact engine_emit_release _ s k e qt hq hkeys hab hp

/-- Wrapper form of the non-aborted `#run` characterization. -/
theorem runTask_notAborted (s : Sys) (req : Request) (callers : Nat) :
    runTask s req false callers =
      if s.pre.isEmpty then
        { s with activeRequests := s.activeRequests + 1,
                 events := s.events ++ [.incr, .fetchCall req.url],
                 execs := s.execs ++ [⟨req, callers, .ok (), .net⟩] }
      else
        { s with activeRequests := s.activeRequests + 1,
                 events := s.events ++ [.incr] ++ (executePreResult s.pre req.url req.options).1,
                 execs := s.execs ++
                   [⟨req, callers, (executePreResult s.pre req.url req.options).2, .hooks⟩] } :=
  engine_run_notAborted _ _ _ _

/-- Facts about any successfully constructed instance. -/
theorem make_ok (cfg : Option FetchQueueConfig) (s : Sys)
    (h : FetchQueue.make cfg = .ok s) :
    s.activeRequests = 0 ∧ s.queue = none ∧ s.queueKeys = [] ∧ s.execs = [] ∧
    0 < s.concurrent ∧ s.nextStamp = 0 ∧
    s.pauseQueue = (cfg.bind (·.pauseQueueOnInit)).getD false ∧
    s.queuingPatterns = (cfg.bind (·.queuingPatterns)).getD [] := by
  unfold FetchQueue.make at h
  split at h <;> (try simp only [] at h) <;> split at h <;>
    (try split at h)
  all_goals
    try (rename_i hle
         simp only [Except.ok.injEq] at h
         subst h
         exact ⟨rfl, rfl, rfl, rfl, not_le.mp hle, rfl, rfl, rfl⟩)
  all_goals exact absurd h (by simp)

/-- The key list determines whether lookup succeeds. -/
theorem qlookup_isSome_iff (q : List (String × Entry)) (k : String) :
    (qlookup q k).isSome = true ↔ k ∈ keysOf q := by
  induction q with
  | nil => simp [qlookup, keysOf]
  | cons kv t ih =>
      by_cases hk : kv.1 = k
      · subst hk
        simp [qlookup, keysOf, List.find?_cons]
      · have hb : (kv.1 == k) = false := beq_eq_false_iff_ne.mpr hk
        have hne : ¬ k = kv.1 := fun h => hk h.symm
        simp only [qlookup, keysOf, List.map_cons, List.find?_cons] at ih ⊢
        simp only [hb, Bool.false_eq_true, if_false, List.mem_cons]
        rw [ih]
        simp [hne]

/-- Mapping an entry-rewriting function over the store keeps the keys. -/
theorem keysOf_map_snd (q : List (String × Entry)) (f : String × Entry → Entry) :
    keysOf (q.map fun kv => (kv.1, f kv)) = keysOf q := by
  unfold keysOf
  rw [List.map_map]
  rfl

/-- Store well-formedness, maintained by every reachable state: the key
list mirrors the store's keys (`#queueKeys = Object.keys(#queue)`), the
store is `undefined` rather than empty, keys are unique, no stored entry
is aborted (aborting happens only inside `emptyQueue`, which then clears
the store), and arrival stamps are strictly increasing along the store
and below the next stamp. -/
def QWF (s : Sys) : Prop :=
  (s.queue = none → s.queueKeys = []) ∧
  ∀ q, s.queue = some q →
    q ≠ [] ∧
    s.queueKeys = keysOf q ∧
    (keysOf q).Nodup ∧
    (∀ kv ∈ q, kv.2.aborted = false ∧ kv.2.stamp < s.nextStamp) ∧
    (q.map fun kv => kv.2.stamp).Pairwise (· < ·)

/-- Well-formedness only looks at the store, the key list and the stamp
counter. -/
theorem QWF_of_eq (s t : Sys) (hq : t.queue = s.queue)
    (hk : t.queueKeys = s.queueKeys) (hn : t.nextStamp = s.nextStamp)
    (h : QWF s) : QWF t := by
  unfold QWF at h ⊢
  rw [hq, hk, hn]
  exact h

/-- Logging does not change the stamp counter. -/
@[simp] theorem log_nextStamp (s : Sys) (e : Event) :
    (log s e).nextStamp = s.nextStamp := rfl

/-- The guarded decrement does not change the stamp counter. -/
@[simp] theorem guardedDecr_nextStamp (s : Sys) :
    (guardedDecr s).nextStamp = s.nextStamp := by
  unfold guardedDecr; split <;> rfl

/-- Projection form of the release lemma. -/
theorem emitRCE_release_proj (s : Sys) (k : String) (e : Entry)
    (qt : List (String × Entry))
    (hq : s.queue = some ((k, e) :: qt))
    (hkeys : s.queueKeys = k :: keysOf qt)
    (hab : e.aborted = false)
    (hp : s.pauseQueue = false) :
    (emitRequestCompletedEvent s).queue = (if qt.isEmpty then none else some qt) ∧
    (emitRequestCompletedEvent s).queueKeys = keysOf qt ∧
    (emitRequestCompletedEvent s).nextStamp = s.nextStamp ∧
    (emitRequestCompletedEvent s).activeRequests = s.activeRequests + 1 ∧
    (emitRequestCompletedEvent s).execs.length = s.execs.length + 1 ∧
    (emitRequestCompletedEvent s).pauseQueue = false ∧
    (emitRequestCompletedEvent s).concurrent = s.concurrent ∧
    (emitRequestCompletedEvent s).queuingPatterns = s.queuingPatterns := by
  rw [emitRCE_release s k e qt hq hkeys hab hp]
  by_cases hpre : s.pre.isEmpty <;> simp [hpre, hp]

/-- The emitter preserves store well-formedness. -/
theorem QWF_emit (s : Sys) (h : QWF s) : QWF (emitRequestCompletedEvent s) := by
  rcases hq : s.queue with _ | q
  · rw [emitRCE_stutter s (Or.inl hq)]; exact h
  · by_cases hp : s.pauseQueue
    · rw [emitRCE_stutter s (Or.inr (Or.inr hp))]; exact h
    · obtain ⟨hne, hsync, hnodup, hprops, hsort⟩ := h.2 q hq
      rcases q with _ | ⟨⟨k, e⟩, qt⟩
      · exact absurd rfl hne
      · have hkeys : s.queueKeys = k :: keysOf qt := by simpa [keysOf] using hsync
        have hab : e.aborted = false := (hprops (k, e) (by simp)).1
        obtain ⟨hq', hk', hn', -, -, -, -, -⟩ :=
          emitRCE_release_proj s k e qt hq hkeys hab (by simpa using hp)
        rcases qt with _ | ⟨kv2, qt2⟩
        · simp only [List.isEmpty_nil, if_true] at hq'
          exact ⟨fun _ => by simpa [keysOf] using hk',
                 fun q2 hq2 => absurd (hq' ▸ hq2) (by simp)⟩
        · simp only [List.isEmpty_cons, if_false] at hq'
          constructor
          · intro h0
            exact absurd (hq' ▸ h0) (by simp)
          · intro q2 hq2
            have hq2' : q2 = kv2 :: qt2 := by
              have := hq' ▸ hq2
              exact (Option.some.injEq _ _ ▸ this.symm)
            subst hq2'
            refine ⟨by simp, hk', ?_, ?_, ?_⟩
            · exact (by simpa [keysOf] using hnodup : (k :: keysOf (kv2 :: qt2)).Nodup).of_cons
            · intro kv hkv
              have := hprops kv (by simp [hkv])
              rw [hn']
              exact this
            · exact (by simpa using hsort : ((e.stamp :: (kv2 :: qt2).map fun kv => kv.2.stamp)).Pairwise (· < ·)).of_cons

/-- The guarded decrement preserves store well-formedness. -/
theorem QWF_guardedDecr (s : Sys) (h : QWF s) : QWF (guardedDecr s) :=
  QWF_of_eq s _ (guardedDecr_queue s) (guardedDecr_queueKeys s) (guardedDecr_nextStamp s) h

/-- Updating one entry in place does not change the stamp sequence. -/
theorem stamps_map_update (q0 : List (String × Entry)) (key : String) (f : Entry → Entry)
    (hf : ∀ e, (f e).stamp = e.stamp) :
    ((q0.map fun kv => (kv.1, if kv.1 == key then f kv.2 else kv.2)).map
        fun kv => kv.2.stamp) =
      q0.map fun kv => kv.2.stamp := by
  induction q0 with
  | nil => rfl
  | cons kv t ih =>
      simp only [List.map_cons, ih]
      congr 1
      split <;> simp [hf]

/-- The defer path preserves store well-formedness. -/
theorem QWF_enqueueTask (s : Sys) (req : Request) (h : QWF s) :
    QWF (enqueueTask s req) := by
  unfold enqueueTask
  simp only []
  split
  · next hcond =>
      rcases hq : s.queue with _ | q0
      · rw [hq] at hcond
        simp [qlookup] at hcond
      · simp only [Option.getD_some] at hcond ⊢
        obtain ⟨hne, hsync, hnodup, hprops, hsort⟩ := h.2 q0 hq
        constructor
        · intro h0; exact absurd h0 (by simp)
        · intro q2 hq2
          simp only [Option.some.injEq] at hq2
          subst hq2
          refine ⟨by simpa using hne, rfl, ?_, ?_, ?_⟩
          · rw [keysOf_map_snd]
            exact hnodup
          · intro kv hkv
            simp only [List.mem_map] at hkv
            obtain ⟨kv0, hkv0, hkv0e⟩ := hkv
            subst hkv0e
            constructor
            · simp only []
              split <;> simp [(hprops kv0 hkv0).1]
            · simp only []
              have := (hprops kv0 hkv0).2
              split <;> simpa using this
          · rw [stamps_map_update q0 (JVal.stringify (requestKeyValOf s req))
                (fun e0 => { e0 with aborted := false, req := req, keyVal := requestKeyValOf s req, callers := e0.callers + 1 })
                (fun e0 => rfl)]
            exact hsort
  · next hcond =>
      rcases hq : s.queue with _ | q0
      · have hkeys : s.queueKeys = [] := h.1 hq
        simp only [Option.getD_none, List.nil_append]
        constructor
        · intro h0; exact absurd h0 (by simp)
        · intro q2 hq2
          simp only [Option.some.injEq] at hq2
          subst hq2
          exact ⟨by simp, rfl, by simp [keysOf], by simp, by simp [keysOf]⟩
      · simp only [Option.getD_some] at hcond ⊢
        obtain ⟨hne, hsync, hnodup, hprops, hsort⟩ := h.2 q0 hq
        have hnotmem : JVal.stringify (requestKeyValOf s req) ∉ keysOf q0 := by
          intro hmem
          have hsome : (qlookup q0 (JVal.stringify (requestKeyValOf s req))).isSome = true :=
            (qlookup_isSome_iff q0 _).mpr hmem
          have hcont : s.queueKeys.contains (JVal.stringify (requestKeyValOf s req)) = true := by
            rw [hsync]
            exact List.elem_iff.mpr hmem
          simp only [Bool.and_eq_true, not_and] at hcond
          simp [hcont, hsome] at hcond
          have hval := hcond (by rw [hsync]; exact hmem)
          rw [hq] at hval
          simp only [Option.getD_some] at hval
          rw [hval] at hsome
          simp at hsome
        constructor
        · intro h0; exact absurd h0 (by simp)
        · intro q2 hq2
          simp only [Option.some.injEq] at hq2
          subst hq2
          refine ⟨by simp, rfl, ?_, ?_, ?_⟩
          · unfold keysOf
            rw [List.map_append]
            rw [List.nodup_append]
            refine ⟨hnodup, by simp, ?_⟩
            intro a ha hb
            simp at hb
            subst hb
            exact hnotmem ha
          · intro kv hkv
            rcases List.mem_append.mp hkv with hmem | hmem
            · have h2 := (hprops kv hmem).2
              refine ⟨(hprops kv hmem).1, ?_⟩
              show kv.2.stamp < s.nextStamp + 1
              omega
            · simp at hmem
              rw [hmem]
              refine ⟨rfl, ?_⟩
              show s.nextStamp < s.nextStamp + 1
              omega
          · rw [List.map_append]
            rw [List.pairwise_append]
            refine ⟨hsort, by simp, ?_⟩
            intro a ha b hb
            simp at hb
            subst hb
            simp only [List.mem_map] at ha
            obtain ⟨kv0, hkv0, hkv0e⟩ := ha
            subst hkv0e
            exact (hprops kv0 hkv0).2

/-- The wrapped fetch preserves store well-formedness. -/
theorem QWF_f_fetch (s : Sys) (req : Request) (h : QWF s) : QWF (f_fetch s req) := by
  unfold f_fetch
  split
  · rw [runTask_notAborted]
    split <;> exact QWF_of_eq s _ rfl rfl rfl h
  · exact QWF_enqueueTask s req h

/-- The hook-settlement step preserves store well-formedness. -/
theorem QWF_hookResolve (s : Sys) (i : Nat) (h : QWF s) : QWF (hookResolve s i) := by
  unfold hookResolve
  split
  · split
    · split
      · exact QWF_of_eq s _ rfl rfl rfl h
      · exact QWF_emit _ (QWF_guardedDecr _ (QWF_of_eq s _ rfl rfl rfl h))
    · exact h
  · exact h

/-- The fetch-settlement step preserves store well-formedness. -/
theorem QWF_netSettle (s : Sys) (i : Nat) (o : Outcome) (h : QWF s) :
    QWF (netSettle s i o) := by
  unfold netSettle
  split
  · split
    · exact QWF_emit _ (QWF_guardedDecr _ (QWF_of_eq s _ rfl rfl rfl h))
    · exact h
  · exact h

/-- Pausing preserves store well-formedness. -/
theorem QWF_pause (s : Sys) (h : QWF s) : QWF (pauseQueueOp s) :=
  QWF_of_eq s _ rfl rfl rfl h

/-- Resuming preserves store well-formedness. -/
theorem QWF_start (s : Sys) (h : QWF s) : QWF (startQueueOp s) :=
  QWF_emit _ (QWF_of_eq s _ rfl rfl rfl h)

/-- Setting the limit preserves store well-formedness. -/
theorem QWF_setConcurrent (s : Sys) (n : Int) (h : QWF s) :
    QWF (setConcurrentOp s n) :=
  QWF_of_eq s _ rfl rfl rfl h

/-- Draining leaves an empty, well-formed store. -/
theorem QWF_emptyQueue (s : Sys) (pat : Option (String → Bool)) (h : QWF s) :
    QWF (emptyQueue s pat) := by
  unfold emptyQueue
  split
  · exact h
  · exact ⟨fun _ => rfl, fun q2 hq2 => absurd hq2 (by simp)⟩

/-- The invariant of all reachable states: the counter is non-negative
and the store is well-formed. -/
def Inv (s : Sys) : Prop := 0 ≤ s.activeRequests ∧ QWF s

/-- The drain loop cannot drive the counter below zero. -/
theorem emptyQueueLoop_nonneg (fuel : Nat) (pat : Option (String → Bool)) (i : Nat)
    (s : Sys) (h : 0 ≤ s.activeRequests) :
    0 ≤ (emptyQueueLoop fuel pat i s).activeRequests := by
  induction fuel generalizing i s with
  | zero => exact h
  | succ n ih =>
      rw [emptyQueueLoop]
      split
      · rcases hq : s.queue with _ | q
        · exact h
        · rcases hl : qlookup q (s.queueKeys.getD i "") with _ | e
          · simp only [hl]
            exact h
          · simp only [hl]
            apply ih
            apply engine_active_nonneg
            split <;> exact h
      · exact h

/-- The wrapped fetch preserves the invariant. -/
theorem Inv_f_fetch (s : Sys) (req : Request) (h : Inv s) : Inv (f_fetch s req) := by
  refine ⟨?_, QWF_f_fetch s req h.2⟩
  unfold f_fetch
  split
  · exact engine_active_nonneg _ _ _ h.1
  · unfold enqueueTask
    simp only []
    split <;> exact h.1

/-- Hook settlement preserves the invariant. -/
theorem Inv_hookResolve (s : Sys) (i : Nat) (h : Inv s) : Inv (hookResolve s i) := by
  refine ⟨?_, QWF_hookResolve s i h.2⟩
  unfold hookResolve
  split
  · split
    · split
      · exact h.1
      · exact engine_active_nonneg _ _ _ (guardedDecr_nonneg _ h.1)
    · exact h.1
  · exact h.1

/-- Fetch settlement preserves the invariant. -/
theorem Inv_netSettle (s : Sys) (i : Nat) (o : Outcome) (h : Inv s) :
    Inv (netSettle s i o) := by
  refine ⟨?_, QWF_netSettle s i o h.2⟩
  unfold netSettle
  split
  · split
    · exact engine_active_nonneg _ _ _ (guardedDecr_nonneg _ h.1)
    · exact h.1
  · exact h.1

/-- Pausing preserves the invariant. -/
theorem Inv_pause (s : Sys) (h : Inv s) : Inv (pauseQueueOp s) :=
  ⟨le_refl 0, QWF_pause s h.2⟩

/-- Resuming preserves the invariant. -/
theorem Inv_start (s : Sys) (h : Inv s) : Inv (startQueueOp s) :=
  ⟨engine_active_nonneg _ _ _ h.1, QWF_start s h.2⟩

/-- Setting the limit preserves the invariant. -/
theorem Inv_setConcurrent (s : Sys) (n : Int) (h : Inv s) :
    Inv (setConcurrentOp s n) :=
  ⟨h.1, QWF_setConcurrent s n h.2⟩

/-- Draining preserves the invariant. -/
theorem Inv_emptyQueue (s : Sys) (pat : Option (String → Bool)) (h : Inv s) :
    Inv (emptyQueue s pat) := by
  refine ⟨?_, QWF_emptyQueue s pat h.2⟩
  unfold emptyQueue
  split
  · exact h.1
  · exact emptyQueueLoop_nonneg _ _ _ _ h.1

/-- Every step preserves the invariant. -/
theorem Step_inv {s t : Sys} (hst : Step s t) (h : Inv s) : Inv t := by
  cases hst with
  | fetch req => exact Inv_f_fetch _ req h
  | hookRes i => exact Inv_hookResolve _ i h
  | netRes i o => exact Inv_netSettle _ i o h
  | pause => exact Inv_pause _ h
  | start => exact Inv_start _ h
  | setConc n => exact Inv_setConcurrent _ n h
  | empty p => exact Inv_emptyQueue _ p h

/-- Every reachable state satisfies the invariant. -/
theorem Reach_inv {cfg : Option FetchQueueConfig} {s : Sys} (h : Reach cfg s) :
    Inv s := by
  induction h with
  | init h0 =>
      obtain ⟨ha, hq, hk, -, -, -, -, -⟩ := make_ok _ _ h0
      exact ⟨le_of_eq ha.symm, fun _ => hk, fun q hq2 => absurd (hq ▸ hq2) (by simp)⟩
  | step hs hst ih => exact Step_inv hst ih

/-- The non-underflow branch of the guarded decrement. -/
theorem guardedDecr_pos (s : Sys) (h : s.activeRequests ≠ 0) :
    guardedDecr s = log {s with activeRequests := s.activeRequests - 1} .decr := by
  unfold guardedDecr
  rw [if_neg h]

/-- Projections of the defer path: it only touches the store, the key
list and the stamp counter. -/
theorem enqueueTask_proj (s : Sys) (req : Request) :
    (enqueueTask s req).activeRequests = s.activeRequests ∧
    (enqueueTask s req).execs = s.execs ∧
    (enqueueTask s req).events = s.events ∧
    (enqueueTask s req).pauseQueue = s.pauseQueue ∧
    (enqueueTask s req).queuingPatterns = s.queuingPatterns ∧
    (enqueueTask s req).concurrent = s.concurrent ∧
    (enqueueTask s req).pre = s.pre := by
  unfold enqueueTask
  simp only []
  split <;> exact ⟨rfl, rfl, rfl, rfl, rfl, rfl, rfl⟩

/-- Hook settlement with no such execution does nothing. -/
theorem hookResolve_none (s : Sys) (i : Nat) (hi : s.execs[i]? = none) :
    hookResolve s i = s := by
  unfold hookResolve
  simp only [hi]

/-- Hook settlement of an execution past its hook phase does nothing. -/
theorem hookResolve_notHooks (s : Sys) (i : Nat) (e : Exec)
    (hi : s.execs[i]? = some e) (hph : ¬ e.phase = .hooks) :
    hookResolve s i = s := by
  unfold hookResolve
  simp only [hi, if_neg hph]

/-- Hook fulfilment: the underlying fetch is issued and the execution
moves to the network phase. -/
theorem hookResolve_ok (s : Sys) (i : Nat) (e : Exec)
    (hi : s.execs[i]? = some e) (hph : e.phase = .hooks)
    (hr : e.hookResult = .ok ()) :
    hookResolve s i =
      { log s (.fetchCall e.req.url) with
        execs := (log s (.fetchCall e.req.url)).execs.set i {e with phase := .net} } := by
  unfold hookResolve
  simp only [hi, hph, hr]
  simp

/-- Hook rejection: the request settles with the hook's failure, no fetch
is issued, and the `finally` path runs. -/
theorem hookResolve_err (s : Sys) (i : Nat) (e : Exec) (m : String)
    (hi : s.execs[i]? = some e) (hph : e.phase = .hooks)
    (hr : e.hookResult = .error m) :
    hookResolve s i =
      settleFinally (removeExec (log s (.settled e.req.url (.failure m) e.callers)) i) := by
  unfold hookResolve
  simp only [hi, hph, hr]
  simp

/-- Fetch settlement with no such execution does nothing. -/
theorem netSettle_none (s : Sys) (i : Nat) (o : Outcome) (hi : s.execs[i]? = none) :
    netSettle s i o = s := by
  unfold netSettle
  simp only [hi]

/-- Fetch settlement of an execution not at the fetch `await` does
nothing. -/
theorem netSettle_notNet (s : Sys) (i : Nat) (o : Outcome) (e : Exec)
    (hi : s.execs[i]? = some e) (hph : ¬ e.phase = .net) :
    netSettle s i o = s := by
  unfold netSettle
  simp only [hi, if_neg hph]

/-- Fetch settlement: the callers observe the outcome and the `finally`
path runs. -/
theorem netSettle_some (s : Sys) (i : Nat) (o : Outcome) (e : Exec)
    (hi : s.execs[i]? = some e) (hph : e.phase = .net) :
    netSettle s i o =
      settleFinally (removeExec (log s (.settled e.req.url o e.callers)) i) := by
  unfold netSettle
  simp only [hi, hph]
  simp

/-- The invariant of plain operation (no pause, no reconfiguration, no
drain, no queuing patterns): the queue is never paused, the counter
counts exactly the suspended executions, and that count never exceeds the
limit. -/
def CoreInv (s : Sys) : Prop :=
  s.pauseQueue = false ∧
  s.queuingPatterns = [] ∧
  s.activeRequests = (s.execs.length : Int) ∧
  (s.execs.length : Int) ≤ s.concurrent ∧
  QWF s

/-- The wrapped fetch preserves the core invariant: it admits a new
execution only below the limit, and otherwise only touches the store. -/
theorem CoreInv_f_fetch (s : Sys) (req : Request) (h : CoreInv s) :
    CoreInv (f_fetch s req) := by
  obtain ⟨hp, hpat, hact, hle, hwf⟩ := h
  have hbp : bypassQueueOf s req = false := by simp [bypassQueueOf, hpat]
  unfold f_fetch
  rw [hbp, hp]
  simp only [Bool.or_false, Bool.not_false, Bool.and_true]
  by_cases hlt : s.activeRequests < s.concurrent
  · rw [if_pos (by simpa using hlt)]
    rw [runTask_notAborted]
    split <;>
      refine ⟨hp, hpat, ?_, ?_, QWF_of_eq s _ rfl rfl rfl hwf⟩ <;>
        simp [hact] <;> omega
  · rw [if_neg (by simpa using hlt)]
    obtain ⟨h1, h2, -, h4, h5, h6, -⟩ := enqueueTask_proj s req
    exact ⟨h4.trans hp, h5.trans hpat, by rw [h1, h2]; exact hact,
           by rw [h2, h6]; exact hle, QWF_enqueueTask s req hwf⟩

/-- The common settlement path (`finally` block plus emitter) preserves
the core invariant. -/
theorem CoreInv_settle (s : Sys) (i : Nat) (ev : Event)
    (hi : i < s.execs.length) (h : CoreInv s) :
    CoreInv (settleFinally (removeExec (log s ev) i)) := by
  obtain ⟨hp, hpat, hact, hle, hwf⟩ := h
  have hlen1 : 1 ≤ s.execs.length := by omega
  have hne : (removeExec (log s ev) i).activeRequests ≠ 0 := by
    show s.activeRequests ≠ 0
    rw [hact]
    simp only [ne_eq, Int.natCast_eq_zero]
    omega
  unfold settleFinally
  rw [guardedDecr_pos _ hne]
  have hXlen : ((s.execs.eraseIdx i).length : Int) = (s.execs.length : Int) - 1 := by
    rw [List.length_eraseIdx_of_lt hi]
    omega
  have hYwf : QWF (log {removeExec (log s ev) i with
      activeRequests := (removeExec (log s ev) i).activeRequests - 1} .decr) :=
    QWF_of_eq s _ rfl rfl rfl hwf
  rcases hq : (log {removeExec (log s ev) i with
      activeRequests := (removeExec (log s ev) i).activeRequests - 1} .decr).queue
    with _ | q
  · rw [emitRCE_stutter _ (Or.inl hq)]
    refine ⟨hp, hpat, ?_, ?_, hYwf⟩
    · show s.activeRequests - 1 = ((s.execs.eraseIdx i).length : Int)
      omega
    · show ((s.execs.eraseIdx i).length : Int) ≤ s.concurrent
      omega
  · obtain ⟨hne2, hsync, hnodup, hprops, hsort⟩ := hYwf.2 q hq
    rcases q with _ | ⟨⟨k, e⟩, qt⟩
    · exact absurd rfl hne2
    · have hkeys2 : (log {removeExec (log s ev) i with
          activeRequests := (removeExec (log s ev) i).activeRequests - 1}
            .decr).queueKeys = k :: keysOf qt := by
        simpa [keysOf] using hsync
      have hab : e.aborted = false := (hprops (k, e) (by simp)).1
      obtain ⟨hq', hk', hn', hact', hlen', hpau', hconc', hpat'⟩ :=
        emitRCE_release_proj _ k e qt hq hkeys2 hab (by show s.pauseQueue = false; exact hp)
      refine ⟨hpau', by rw [hpat']; exact hpat, ?_, ?_, QWF_emit _ hYwf⟩
      · rw [hact', hlen']
        show s.activeRequests - 1 + 1 = (((s.execs.eraseIdx i).length + 1 : Nat) : Int)
        omega
      · rw [hlen', hconc']
        show (((s.execs.eraseIdx i).length + 1 : Nat) : Int) ≤ s.concurrent
        omega

/-- Hook settlement preserves the core invariant. -/
theorem CoreInv_hookResolve (s : Sys) (i : Nat) (h : CoreInv s) :
    CoreInv (hookResolve s i) := by
  obtain ⟨hp, hpat, hact, hle, hwf⟩ := h
  rcases hi : s.execs[i]? with _ | e
  · rw [hookResolve_none s i hi]
    exact ⟨hp, hpat, hact, hle, hwf⟩
  · have hilt : i < s.execs.length := by
      by_contra hna
      rw [List.getElem?_eq_none (by omega)] at hi
      exact absurd hi (by simp)
    by_cases hph : e.phase = .hooks
    · rcases hr : e.hookResult with m | u
      · rw [hookResolve_err s i e m hi hph hr]
        exact CoreInv_settle s i _ hilt ⟨hp, hpat, hact, hle, hwf⟩
      · cases u
        rw [hookResolve_ok s i e hi hph hr]
        refine ⟨hp, hpat, ?_, ?_, QWF_of_eq s _ rfl rfl rfl hwf⟩
        · show s.activeRequests = (((log s (.fetchCall e.req.url)).execs.set i
            {e with phase := .net}).length : Int)
          rw [List.length_set]
          exact hact
        · show (((log s (.fetchCall e.req.url)).execs.set i
            {e with phase := .net}).length : Int) ≤ s.concurrent
          rw [List.length_set]
          exact hle
    · rw [hookResolve_notHooks s i e hi hph]
      exact ⟨hp, hpat, hact, hle, hwf⟩

/-- Fetch settlement preserves the core invariant. -/
theorem CoreInv_netSettle (s : Sys) (i : Nat) (o : Outcome) (h : CoreInv s) :
    CoreInv (netSettle s i o) := by
  obtain ⟨hp, hpat, hact, hle, hwf⟩ := h
  rcases hi : s.execs[i]? with _ | e
  · rw [netSettle_none s i o hi]
    exact ⟨hp, hpat, hact, hle, hwf⟩
  · have hilt : i < s.execs.length := by
      by_contra hna
      rw [List.getElem?_eq_none (by omega)] at hi
      exact absurd hi (by simp)
    by_cases hph : e.phase = .net
    · rw [netSettle_some s i o e hi hph]
      exact CoreInv_settle s i _ hilt ⟨hp, hpat, hact, hle, hwf⟩
    · rw [netSettle_notNet s i o e hi hph]
      exact ⟨hp, hpat, hact, hle, hwf⟩

/-- Every core step preserves the core invariant. -/
theorem CoreStep_inv {s t : Sys} (hst : CoreStep s t) (h : CoreInv s) : CoreInv t := by
  cases hst with
  | fetch req => exact CoreInv_f_fetch _ req h
  | hookRes i => exact CoreInv_hookResolve _ i h
  | netRes i o => exact CoreInv_netSettle _ i o h

/-- Every state reachable by plain operation from a construction that
configured no queuing patterns and did not start paused satisfies the
core invariant. -/
theorem CoreReach_inv {cfg : Option FetchQueueConfig} {s : Sys}
    (h : CoreReach cfg s)
    (hpat : (cfg.bind (·.queuingPatterns)).getD [] = [])
    (hpau : (cfg.bind (·.pauseQueueOnInit)).getD false = false) : CoreInv s := by
  induction h with
  | init h0 =>
      obtain ⟨ha, hq, hk, he, hc, -, hpq, hqp⟩ := make_ok _ _ h0
      refine ⟨hpq.trans hpau, hqp.trans hpat, ?_, ?_, ?_⟩
      · rw [ha, he]; rfl
      · rw [he]; simpa using le_of_lt hc
      · exact ⟨fun _ => hk, fun q hq2 => absurd (hq ▸ hq2) (by simp)⟩
  | step hs hst ih => exact CoreStep_inv hst ih

/-!
Concrete material shared by the claim theorems below: a queue with
concurrency limit 1 and three distinct requests.
-/

/-- Constructor options with `concurrent: 1`. -/
def cfgOne : Option FetchQueueConfig := some { concurrent := some 1 }

/-- A request to target `A` with no options. -/
def reqA : Request := { url := "A" }

/-- A request to target `B` with no options. -/
def reqB : Request := { url := "B" }

/-- A request to target `C` with no options. -/
def reqC : Request := { url := "C" }

/-- The freshly constructed state for `cfgOne`. -/
def sInit1 : Sys :=
  { concurrent := 1, pauseQueue := false, activeRequests := 0, queue := none,
    queueKeys := [], pre := [], queuingPatterns := [],
    keyBuilderParams := defaultKeyBuilderParams,
    execs := [], nextStamp := 0, events := [] }

/-- Constructing with `concurrent: 1` succeeds and yields `sInit1`. -/
theorem make_cfgOne : FetchQueue.make cfgOne = .ok sInit1 := rfl

/-- Number of `ev` events in a list. -/
def countEvent (ev : Event) (l : List Event) : Nat :=
  (l.filter fun x => x = ev).length

/-- The state of the C1 counterexample trace: limit 1, request A admitted
and in flight, request B deferred, then `pauseQueue()` (which zeroes the
counter while A is still in flight) followed by `startQueue()` (which
releases B).  Both A and B are now at the fetch `await`. -/
def c1State : Sys := startQueueOp (pauseQueueOp (f_fetch (f_fetch sInit1 reqA) reqB))

/-- C1 (counterexample): with concurrency limit K = 1 and N = 2 wrapped
calls, an interleaving containing a pause and a resume reaches a state
with two simultaneously active executions — two calls issued to the
underlying fetch and not yet settled — exceeding the limit.  The claim
that the active count is at most K at every point of every interleaving
of starts, completions, cancellations, pauses and reconfigurations is
therefore false. -/
theorem C1_counterexample :
    Reach cfgOne c1State ∧ c1State.concurrent = 1 ∧ netCount c1State = 2 :=
  ⟨Reach.step
      (Reach.step
        (Reach.step (Reach.step (Reach.init make_cfgOne) (Step.fetch reqA))
          (Step.fetch reqB))
        Step.pause)
      Step.start,
   rfl, by decide⟩

/-- C1 (amended): for every sequence of invocations with concurrency
limit K, at every point of every interleaving consisting only of request
starts, pre-hook settlements and fetch settlements — no pause, no resume,
no limit reconfiguration, no force-drain — and starting from a
construction that configured no queuing patterns (so no call bypasses
admission) and did not start paused, the number of simultaneously active
executions is at most K. -/
theorem C1_amended_bound (cfg : Option FetchQueueConfig) (s : Sys)
    (hpat : (cfg.bind (·.queuingPatterns)).getD [] = [])
    (hpau : (cfg.bind (·.pauseQueueOnInit)).getD false = false)
    (h : CoreReach cfg s) :
    (netCount s : Int) ≤ s.concurrent := by
  obtain ⟨-, -, hact, hle, -⟩ := CoreReach_inv h hpat hpau
  have hf : netCount s ≤ s.execs.length := List.length_filter_le _ _
  omega

/-- Witness for the amended C1 bound at a concrete reachable state. -/
theorem C1_amended_bound_witness :
    (netCount (f_fetch sInit1 reqA) : Int) ≤ (f_fetch sInit1 reqA).concurrent :=
  C1_amended_bound cfgOne _ rfl rfl
    (CoreReach.step (CoreReach.init make_cfgOne) (CoreStep.fetch reqA))

/-- C9: in every reachable state the live count is non-negative, and when
it is zero the settlement decrement is guarded: `#run`'s `finally` block
emits the diagnostic warning and leaves the count at zero instead of
decrementing below it. -/
theorem C9_liveCount_nonneg (cfg : Option FetchQueueConfig) (s : Sys)
    (h : Reach cfg s) :
    0 ≤ s.activeRequests ∧
    (s.activeRequests = 0 →
      guardedDecr s = log s .warnNegative ∧
      (guardedDecr s).activeRequests = 0) := by
  refine ⟨(Reach_inv h).1, fun h0 => ⟨?_, ?_⟩⟩
  · unfold guardedDecr
    rw [if_pos h0]
  · unfold guardedDecr
    rw [if_pos h0]
    exact h0

/-- Witness for C9 at the freshly constructed state. -/
theorem C9_liveCount_nonneg_witness :
    0 ≤ sInit1.activeRequests ∧
    (sInit1.activeRequests = 0 →
      guardedDecr sInit1 = log sInit1 .warnNegative ∧
      (guardedDecr sInit1).activeRequests = 0) :=
  C9_liveCount_nonneg cfgOne sInit1 (Reach.init make_cfgOne)

/-- C4 (counterexample): construction with the non-positive concurrency
value 0 does not fail — JavaScript `options?.concurrent || 3` treats 0 as
falsy, so the instance is silently built with the default limit 3 — and
`setConcurrent(-1)` after a successful construction does not fail either:
it stores -1 without any validation.  The claim that construction and
`setConcurrent` reject every non-positive-integer value is therefore
false. -/
theorem C4_counterexample :
    (FetchQueue.make (some { concurrent := some 0 })).map (·.concurrent) =
      .ok 3 ∧
    (FetchQueue.make (some { concurrent := some 5 })).map
      (fun s => getConcurrent (setConcurrentOp s (-1))) = .ok (-1) :=
  ⟨rfl, rfl⟩

/-- C4 (amended): construction fails synchronously with the
invalid-configuration error exactly for the supplied concurrency values
that are both non-zero and non-positive (for example -1); a supplied 0 is
silently replaced by the default 3; and `setConcurrent` performs no
validation at all, storing any integer argument verbatim. -/
theorem C4_amended (c n : Int) (s : Sys) (hc0 : c ≠ 0) (hc : c ≤ 0) :
    FetchQueue.make (some { concurrent := some c }) =
      .error "Concurrent should be a number greater than zero." ∧
    (FetchQueue.make (some { concurrent := some 0 })).map (·.concurrent) =
      .ok 3 ∧
    getConcurrent (setConcurrentOp s n) = n := by
  refine ⟨?_, rfl, rfl⟩
  unfold FetchQueue.make
  simp [hc0, hc]

/-- Witness for the amended C4 at concurrency -1. -/
theorem C4_amended_witness :
    FetchQueue.make (some { concurrent := some (-1) }) =
      .error "Concurrent should be a number greater than zero." ∧
    (FetchQueue.make (some { concurrent := some 0 })).map (·.concurrent) =
      .ok 3 ∧
    getConcurrent (setConcurrentOp sInit1 7) = 7 :=
  C4_amended (-1) 7 sInit1 (by decide) (by decide)

/-- C7: when the queuing-pattern list is non-empty, a call whose target
matches no pattern executes immediately — the wrapped fetch reduces to a
direct `#run` invocation, with no condition on the live count, the limit
or the paused flag — and when the list is empty every call is subject to
admission control: a call arriving with no bandwidth (or paused) is
deferred into the store. -/
theorem C7_queuing_patterns (s : Sys) (req : Request) :
    (s.queuingPatterns ≠ [] →
      (∀ p ∈ s.queuingPatterns, p req.url = false) →
      f_fetch s req = runTask s req false 1) ∧
    (s.queuingPatterns = [] →
      ¬(s.activeRequests < s.concurrent ∧ s.pauseQueue = false) →
      f_fetch s req = enqueueTask s req) := by
  constructor
  · intro hne hall
    have hbp : bypassQueueOf s req = true := by
      unfold bypassQueueOf
      simp [List.isEmpty_iff, hne]
      intro p hp
      exact hall p hp
    unfold f_fetch
    rw [hbp]
    simp
  · intro hpat hnc
    have hbp : bypassQueueOf s req = false := by
      simp [bypassQueueOf, hpat]
    have hcond : (decide (s.activeRequests < s.concurrent) && !s.pauseQueue) = false := by
      by_cases h1 : s.activeRequests < s.concurrent
      · by_cases h2 : s.pauseQueue
        · simp [h2]
        · exact absurd ⟨h1, by simpa using h2⟩ hnc
      · simp [h1]
    unfold f_fetch
    rw [hbp, hcond]
    simp

/-- The limit-1 state with one active request and a pattern list that
does not match target `A`. -/
def sBusyPat : Sys :=
  { sInit1 with activeRequests := 1, queuingPatterns := [fun u => u == "X"] }

/-- The limit-1 state with one active request and no patterns. -/
def sBusy : Sys := { sInit1 with activeRequests := 1 }

/-- Witness for C7: a non-matching call under a non-empty pattern list
executes immediately even at capacity; with an empty pattern list the
same at-capacity call is deferred. -/
theorem C7_queuing_patterns_witness :
    (f_fetch sBusyPat reqA = runTask sBusyPat reqA false 1) ∧
    (f_fetch sBusy reqA = enqueueTask sBusy reqA) :=
  ⟨(C7_queuing_patterns sBusyPat reqA).1 (by simp [sBusyPat])
      (by intro p hp; simp [sBusyPat] at hp; subst hp; rfl),
   (C7_queuing_patterns sBusy reqA).2 rfl
      (by intro hcon; exact absurd hcon.1 (by decide))⟩

/-- Dropping a prefix of logged events. -/
theorem drop_len_append (l t : List Event) : (l ++ t).drop l.length = t :=
  List.drop_left l t

/-- C5: `pauseQueue()` sets the paused flag and resets the live count to
zero; while paused, a completed execution releases no pending entry — the
store and key list are untouched and no fetch is issued; `startQueue()`
clears the flag and immediately releases exactly the head entry when the
store is non-empty (one increment, one fetch call, one new execution);
and with the queue running, each subsequent completion again releases
exactly the head entry. -/
theorem C5_pause_resume (s : Sys) (i : Nat) (o : Outcome)
    (k : String) (e : Entry) (qt : List (String × Entry)) :
    ((pauseQueueOp s).pauseQueue = true ∧ (pauseQueueOp s).activeRequests = 0) ∧
    (s.pauseQueue = true →
      (netSettle s i o).queue = s.queue ∧
      (netSettle s i o).queueKeys = s.queueKeys ∧
      ∀ u, Event.fetchCall u ∉ (netSettle s i o).events.drop s.events.length) ∧
    (s.queue = some ((k, e) :: qt) → s.queueKeys = k :: keysOf qt →
      e.aborted = false → s.pre = [] →
      startQueueOp s =
        { s with pauseQueue := false,
                 queue := if qt.isEmpty then none else some qt,
                 queueKeys := keysOf qt,
                 activeRequests := s.activeRequests + 1,
                 events := s.events ++ [.incr, .fetchCall e.req.url],
                 execs := s.execs ++ [⟨e.req, e.callers, .ok (), .net⟩] }) ∧
    (s.pauseQueue = false → s.queue = some ((k, e) :: qt) →
      s.queueKeys = k :: keysOf qt → e.aborted = false →
      ∀ e2, s.execs[i]? = some e2 → e2.phase = .net →
      (netSettle s i o).queueKeys = keysOf qt ∧
      (netSettle s i o).queue = (if qt.isEmpty then none else some qt)) := by
  refine ⟨⟨rfl, rfl⟩, ?_, ?_, ?_⟩
  · intro hp
    rcases hi : s.execs[i]? with _ | e2
    · rw [netSettle_none s i o hi]
      exact ⟨rfl, rfl, by simp⟩
    · by_cases hph : e2.phase = .net
      · rw [netSettle_some s i o e2 hi hph]
        unfold settleFinally
        rw [emitRCE_stutter _ (Or.inr (Or.inr (by rw [guardedDecr_pauseQueue]; exact hp)))]
        refine ⟨by rw [guardedDecr_queue]; rfl, by rw [guardedDecr_queueKeys]; rfl, ?_⟩
        intro u
        unfold guardedDecr
        split <;> simp [log, removeExec, List.append_assoc, drop_len_append]
      · rw [netSettle_notNet s i o e2 hi hph]
        exact ⟨rfl, rfl, by simp⟩
  · intro hq hkeys hab hpre
    unfold startQueueOp
    rw [emitRCE_release ({s with pauseQueue := false} : Sys) k e qt hq hkeys hab rfl]
    have hpre2 : ({s with pauseQueue := false} : Sys).pre.isEmpty = true := by
      show s.pre.isEmpty = true
      simp [hpre]
    rw [if_pos hpre2]
  · intro hp hq hkeys hab e2 hi hph
    rw [netSettle_some s i o e2 hi hph]
    unfold settleFinally
    obtain ⟨h1, h2, -, -, -, -, -, -⟩ :=
      emitRCE_release_proj (guardedDecr (removeExec
        (log s (.settled e2.req.url o e2.callers)) i)) k e qt
        (by rw [guardedDecr_queue]; exact hq)
        (by rw [guardedDecr_queueKeys]; exact hkeys)
        hab
        (by rw [guardedDecr_pauseQueue]; exact hp)

    exact ⟨h2, h1⟩

/-- The paused state with A in flight and B pending. -/
def sPB : Sys := pauseQueueOp (f_fetch (f_fetch sInit1 reqA) reqB)

/-- The running state with A in flight and B pending. -/
def sQB : Sys := f_fetch (f_fetch sInit1 reqA) reqB

/-- The stored key of request B in the limit-1 trace. -/
def kB : String := requestKeyOf sInit1 reqB

/-- The stored entry of request B in the limit-1 trace. -/
def eB : Entry := ⟨0, false, reqB, requestKeyValOf sInit1 reqB, 1⟩

/-- Witness for C5, applied at the concrete paused and running states. -/
theorem C5_pause_resume_witness :
    ((pauseQueueOp sQB).pauseQueue = true ∧ (pauseQueueOp sQB).activeRequests = 0) ∧
    ((netSettle sPB 0 .success).queue = sPB.queue ∧
      (netSettle sPB 0 .success).queueKeys = sPB.queueKeys ∧
      ∀ u, Event.fetchCall u ∉ (netSettle sPB 0 .success).events.drop sPB.events.length) ∧
    (startQueueOp sPB =
      { sPB with pauseQueue := false,
                 queue := none,
                 queueKeys := [],
                 activeRequests := sPB.activeRequests + 1,
                 events := sPB.events ++ [.incr, .fetchCall reqB.url],
                 execs := sPB.execs ++ [⟨reqB, 1, .ok (), .net⟩] }) ∧
    ((netSettle sQB 0 .success).queueKeys = [] ∧
      (netSettle sQB 0 .success).queue = none) := by
  refine ⟨(C5_pause_resume sQB 0 .success kB eB []).1, ?_, ?_, ?_⟩
  · exact (C5_pause_resume sPB 0 .success kB eB []).2.1 rfl
  · have h := (C5_pause_resume sPB 0 .success kB eB []).2.2.1 rfl rfl rfl rfl
    exact h
  · have h := (C5_pause_resume sQB 0 .success kB eB []).2.2.2 rfl rfl rfl rfl
      ⟨reqA, 1, .ok (), .net⟩ rfl rfl
    exact h

/-- C6: in every reachable state the pending store is ordered by arrival:
the head entry is strictly older (smaller arrival stamp) than every other
pending entry, and — when the queue is not paused — the completion
notifier removes exactly that head entry, so entries with distinct keys
are released in arrival order. -/
theorem C6_fifo_oldest_first (cfg : Option FetchQueueConfig) (s : Sys)
    (k : String) (e : Entry) (qt : List (String × Entry))
    (h : Reach cfg s) (hq : s.queue = some ((k, e) :: qt)) :
    (∀ kv ∈ qt, e.stamp < kv.2.stamp) ∧
    (s.pauseQueue = false →
      (emitRequestCompletedEvent s).queue = (if qt.isEmpty then none else some qt) ∧
      (emitRequestCompletedEvent s).queueKeys = keysOf qt) := by
  obtain ⟨hne, hsync, hnodup, hprops, hsort⟩ := (Reach_inv h).2.2 _ hq
  constructor
  · intro kv hkv
    have hsort2 : ∀ b ∈ qt.map (fun kv => kv.2.stamp), e.stamp < b :=
      (List.pairwise_cons.mp (by simpa using hsort)).1
    exact hsort2 _ (List.mem_map.mpr ⟨kv, hkv, rfl⟩)
  · intro hp
    have hkeys : s.queueKeys = k :: keysOf qt := by simpa [keysOf] using hsync
    have hab : e.aborted = false := (hprops (k, e) (by simp)).1
    obtain ⟨h1, h2, -, -, -, -, -, -⟩ := emitRCE_release_proj s k e qt hq hkeys hab hp
    exact ⟨h1, h2⟩

/-- The running state with A in flight and B and C pending. -/
def sQBC : Sys := f_fetch (f_fetch (f_fetch sInit1 reqA) reqB) reqC

/-- The stored key of request C in the limit-1 trace. -/
def kC : String := requestKeyOf sInit1 reqC

/-- The stored entry of request C in the limit-1 trace. -/
def eC : Entry := ⟨1, false, reqC, requestKeyValOf sInit1 reqC, 1⟩

/-- Witness for C6 at a reachable state with two pending entries: B (the
older) is strictly older than C and is the entry the notifier releases. -/
theorem C6_fifo_oldest_first_witness :
    (∀ kv ∈ [(kC, eC)], eB.stamp < kv.2.stamp) ∧
    (sQBC.pauseQueue = false →
      (emitRequestCompletedEvent sQBC).queue =
        (if ([(kC, eC)] : List (String × Entry)).isEmpty then none else some [(kC, eC)]) ∧
      (emitRequestCompletedEvent sQBC).queueKeys = keysOf [(kC, eC)]) :=
  C6_fifo_oldest_first cfgOne sQBC kB eB [(kC, eC)]
    (Reach.step
      (Reach.step (Reach.step (Reach.init make_cfgOne) (Step.fetch reqA))
        (Step.fetch reqB))
      (Step.fetch reqC))
    rfl

/-- In-place update rewrites exactly the stored binding that lookup
finds. -/
theorem qlookup_map_update (q0 : List (String × Entry)) (key : String)
    (f : Entry → Entry) :
    qlookup (q0.map fun kv => (kv.1, if kv.1 == key then f kv.2 else kv.2)) key =
      (qlookup q0 key).map f := by
  induction q0 with
  | nil => rfl
  | cons kv t ih =>
      by_cases hk : kv.1 == key
      · simp [qlookup, List.find?_cons, hk]
        exact fun h => absurd (eq_of_beq hk) h
      · simp only [List.map_cons, qlookup, List.find?_cons, hk] at ih ⊢
        simpa [hk] using ih

/-- C3: a deferred call whose identity key — built by the key builder
from the configured field paths — equals the key of an entry already in
the pending store creates no new queue position and performs no network
call: the store keeps its size and key list, the event log is untouched,
and the stored entry is replaced in place with its fan-out widened by one
caller.  When such an entry is later released, exactly one fetch is
issued for it, and its settlement is delivered once, to all its attached
callers together. -/
theorem C3_dedup (s : Sys) (req : Request) (q0 : List (String × Entry)) (e0 : Entry)
    (hq : s.queue = some q0)
    (hsync : s.queueKeys = keysOf q0)
    (hkey : qlookup q0 (JVal.stringify (requestKeyValOf s req)) = some e0) :
    getQueueLength (enqueueTask s req) = getQueueLength s ∧
    (enqueueTask s req).queueKeys.length = s.queueKeys.length ∧
    (enqueueTask s req).events = s.events ∧
    qlookup ((enqueueTask s req).queue.getD []) (JVal.stringify (requestKeyValOf s req)) =
      some { e0 with aborted := false, req := req, keyVal := requestKeyValOf s req,
                     callers := e0.callers + 1 } ∧
    (∀ (t : Sys) (k : String) (e : Entry) (qt : List (String × Entry)),
      t.queue = some ((k, e) :: qt) → t.queueKeys = k :: keysOf qt →
      e.aborted = false → t.pauseQueue = false → t.pre = [] →
      (emitRequestCompletedEvent t).events = t.events ++ [.incr, .fetchCall e.req.url] ∧
      (emitRequestCompletedEvent t).execs = t.execs ++ [⟨e.req, e.callers, .ok (), .net⟩]) ∧
    (∀ (t : Sys) (i : Nat) (o : Outcome) (e2 : Exec),
      t.execs[i]? = some e2 → e2.phase = .net → t.queue = none →
      t.activeRequests ≠ 0 →
      (netSettle t i o).events.drop t.events.length =
        [.settled e2.req.url o e2.callers, .decr]) := by
  have hmem : JVal.stringify (requestKeyValOf s req) ∈ keysOf q0 :=
    (qlookup_isSome_iff q0 _).mp (by simp [hkey])
  have hcond : (s.queueKeys.contains (JVal.stringify (requestKeyValOf s req)) &&
      (qlookup (s.queue.getD []) (JVal.stringify (requestKeyValOf s req))).isSome) = true := by
    rw [hq, hsync]
    simp only [Option.getD_some]
    rw [Bool.and_eq_true]
    exact ⟨List.elem_iff.mpr hmem, by simp [hkey]⟩
  have henq : enqueueTask s req =
      { s with
        queue := some (q0.map fun kv =>
          (kv.1,
           if kv.1 == JVal.stringify (requestKeyValOf s req) then
             { kv.2 with aborted := false, req := req, keyVal := requestKeyValOf s req,
                         callers := kv.2.callers + 1 }
           else kv.2)),
        queueKeys := keysOf (q0.map fun kv =>
          (kv.1,
           if kv.1 == JVal.stringify (requestKeyValOf s req) then
             { kv.2 with aborted := false, req := req, keyVal := requestKeyValOf s req,
                         callers := kv.2.callers + 1 }
           else kv.2)) } := by
    unfold enqueueTask
    simp only []
    rw [if_pos hcond, hq]
    simp only [Option.getD_some]
  refine ⟨?_, ?_, ?_, ?_, ?_, ?_⟩
  · rw [henq]
    show (q0.map _).length = getQueueLength s
    unfold getQueueLength
    rw [hq]
    simp
  · rw [henq]
    show (keysOf (q0.map _)).length = s.queueKeys.length
    rw [keysOf_map_snd, hsync]
  · rw [henq]
  · rw [henq]
    show qlookup (q0.map _) _ = _
    rw [qlookup_map_update q0 (JVal.stringify (requestKeyValOf s req))
      (fun e1 => { e1 with aborted := false, req := req, keyVal := requestKeyValOf s req, callers := e1.callers + 1 })]
    rw [hkey]
    rfl
  · intro t k e qt htq htk hab htp htpre
    rw [emitRCE_release t k e qt htq htk hab htp]
    rw [if_pos (by simp [htpre])]
    exact ⟨rfl, rfl⟩
  · intro t i o e2 hi hph htq hact
    rw [netSettle_some t i o e2 hi hph]
    unfold settleFinally
    rw [guardedDecr_pos _ (by show t.activeRequests ≠ 0; exact hact)]
    rw [emitRCE_stutter _ (Or.inl (by rw [log_queue]; show t.queue = none; exact htq))]
    show ((t.events ++ [Event.settled e2.req.url o e2.callers]) ++ [Event.decr]).drop
        t.events.length =
      [Event.settled e2.req.url o e2.callers, Event.decr]
    rw [List.append_assoc, drop_len_append]
    rfl

/-- The state with B pending and its key re-requested: `sQB` with a
second call to target B arriving at capacity. -/
def sQB2 : Sys := f_fetch sQB reqB

/-- The in-flight-only state with target A executing. -/
def sA : Sys := f_fetch sInit1 reqA

/-- Witness for C3: the second call to B widens the pending B entry to
two callers without a new position or a fetch; releasing a head entry
issues one fetch; settling a two-caller execution notifies both at
once. -/
theorem C3_dedup_witness :
    getQueueLength (enqueueTask sQB reqB) = getQueueLength sQB ∧
    (enqueueTask sQB reqB).queueKeys.length = sQB.queueKeys.length ∧
    (enqueueTask sQB reqB).events = sQB.events ∧
    qlookup ((enqueueTask sQB reqB).queue.getD [])
        (JVal.stringify (requestKeyValOf sQB reqB)) =
      some { eB with aborted := false, req := reqB,
                     keyVal := requestKeyValOf sQB reqB, callers := eB.callers + 1 } ∧
    ((emitRequestCompletedEvent sQB).events =
        sQB.events ++ [.incr, .fetchCall reqB.url] ∧
      (emitRequestCompletedEvent sQB).execs =
        sQB.execs ++ [⟨reqB, 1, .ok (), .net⟩]) ∧
    ((netSettle sA 0 .success).events.drop sA.events.length =
      [.settled reqA.url .success 1, .decr]) := by
  obtain ⟨h1, h2, h3, h4, h5, h6⟩ := C3_dedup sQB reqB [(kB, eB)] eB rfl rfl rfl
  exact ⟨h1, h2, h3, h4,
    h5 sQB kB eB [] rfl rfl rfl rfl rfl,
    h6 sA 0 .success ⟨reqA, 1, .ok (), .net⟩ rfl rfl rfl (by decide)⟩

/-- C8: for an executed request with pre-hooks configured, every hook
whose pattern matches the target is invoked — with the target and
options, in rule order, siblings included even when one of them fails —
before the network call: the execution is parked awaiting the combined
hook settlement and no fetch event is logged by the start.  The awaited
result is the first failure among the matching hooks (or success), and
if it is a failure the request settles with exactly that failure and the
execution is removed without the network call ever being issued for it —
only the guaranteed-release path runs. -/
theorem C8_pre_hooks (s : Sys) (req : Request) (callers : Nat) (i : Nat) :
    (s.pre ≠ [] →
      runTask s req false callers =
        { s with activeRequests := s.activeRequests + 1,
                 events := s.events ++ [.incr] ++
                   ((s.pre.enum.filter fun ir => !(matchFailed ir.2.pattern req.url)).map
                     fun ir => Event.hookInvoked ir.1 req.url),
                 execs := s.execs ++
                   [⟨req, callers, (executePreResult s.pre req.url req.options).2, .hooks⟩] } ∧
      (∀ u, Event.fetchCall u ∉ (runTask s req false callers).events.drop s.events.length)) ∧
    ((executePreResult s.pre req.url req.options).2 =
      (s.pre.enum.filter fun ir => !(matchFailed ir.2.pattern req.url)).foldl
        (fun acc ir =>
          match acc with
          | .error e => .error e
          | .ok _ => ir.2.hook req.url req.options) (.ok ())) ∧
    (∀ (e : Exec) (m : String), s.execs[i]? = some e → e.phase = .hooks →
      e.hookResult = .error m →
      hookResolve s i =
        settleFinally (removeExec (log s (.settled e.req.url (.failure m) e.callers)) i)) := by
  refine ⟨?_, rfl, ?_⟩
  · intro hne
    have hpre : s.pre.isEmpty = false := by simpa [List.isEmpty_iff] using hne
    constructor
    · rw [runTask_notAborted, if_neg (by simp [hpre])]
      rfl
    · intro u
      rw [runTask_notAborted, if_neg (by simp [hpre])]
      show Event.fetchCall u ∉
        ((s.events ++ [Event.incr] ++ (executePreResult s.pre req.url req.options).1).drop
          s.events.length)
      rw [List.append_assoc, drop_len_append]
      intro hmem
      rcases List.mem_append.mp hmem with h1 | h1
      · simp at h1
      · unfold executePreResult at h1
        simp only [List.mem_map] at h1
        obtain ⟨ir, -, hir⟩ := h1
        exact absurd hir (by simp)
  · intro e m hi hph hr
    exact hookResolve_err s i e m hi hph hr

/-- A hook configuration whose single-pattern rule matches target `A` and
fulfils. -/
def hookOkRule : PreRule := ⟨.single (fun u => u == "A"), fun _ _ => .ok ()⟩

/-- A hook configuration whose pattern array matches everything and
rejects. -/
def hookFailRule : PreRule := ⟨.plist [fun _ => true], fun _ _ => .error "hookboom"⟩

/-- The limit-1 state configured with both hook rules. -/
def sHooks : Sys := { sInit1 with pre := [hookOkRule, hookFailRule] }

/-- An execution parked on a failing hook combination. -/
def eHookFail : Exec := ⟨reqA, 1, .error "hookboom", .hooks⟩

/-- The state with that execution suspended. -/
def sHookFail : Sys := { sInit1 with execs := [eHookFail], activeRequests := 1 }

/-- Witness for C8 at the concrete hook configuration: both rules match
target `A`, both are invoked before any fetch, and the parked execution's
failing combination settles the request with the hook failure. -/
theorem C8_pre_hooks_witness :
    (runTask sHooks reqA false 1 =
      { sHooks with activeRequests := sHooks.activeRequests + 1,
                    events := sHooks.events ++ [.incr] ++
                      ((sHooks.pre.enum.filter
                          fun ir => !(matchFailed ir.2.pattern reqA.url)).map
                        fun ir => Event.hookInvoked ir.1 reqA.url),
                    execs := sHooks.execs ++
                      [⟨reqA, 1, (executePreResult sHooks.pre reqA.url reqA.options).2,
                        .hooks⟩] } ∧
      (∀ u, Event.fetchCall u ∉
        (runTask sHooks reqA false 1).events.drop sHooks.events.length)) ∧
    hookResolve sHookFail 0 =
      settleFinally (removeExec
        (log sHookFail (.settled reqA.url (.failure "hookboom") 1)) 0) :=
  ⟨(C8_pre_hooks sHooks reqA 1 0).1 (by simp [sHooks]),
   (C8_pre_hooks sHookFail reqA 1 0).2.2 eHookFail "hookboom" rfl rfl rfl⟩

/-- Counting distributes over concatenation. -/
theorem countEvent_append (ev : Event) (a b : List Event) :
    countEvent ev (a ++ b) = countEvent ev a + countEvent ev b := by
  unfold countEvent
  rw [List.filter_append, List.length_append]

/-- Hook-invocation logs contain no other kind of event. -/
theorem countEvent_map_hookInvoked (ev : Event) (u : String)
    (l : List (Nat × PreRule)) (h : ∀ idx, ¬ ev = Event.hookInvoked idx u) :
    countEvent ev (l.map fun ir => Event.hookInvoked ir.1 u) = 0 := by
  induction l with
  | nil => rfl
  | cons x t ih =>
      unfold countEvent at ih ⊢
      rw [List.map_cons, List.filter_cons]
      have hx : (decide (Event.hookInvoked x.1 u = ev)) = false := by
        simp only [decide_eq_false_iff_not]
        intro he
        exact h x.1 he.symm
      rw [hx]
      simpa using ih

/-- C2 (amended): every admitted execution that is not aborted before it
starts increments the live count before the network call — its log is
exactly one increment followed by the fetch call (hook-free case) — and
when such an execution settles, whether with success or failure, the
release step runs unconditionally and decrements exactly once: the events
added by the settlement contain exactly one decrement and no underflow
warning (the release may additionally start the next pending execution,
which contributes its own increment, never a decrement).  An entry
aborted before it starts, by contrast, never increments yet its
synchronous `finally` still runs the guarded decrement — see the
counterexample. -/
theorem C2_amended (cfg : Option FetchQueueConfig) (s : Sys) (req : Request)
    (callers : Nat) (i : Nat) (o : Outcome) :
    (s.pre = [] →
      (runTask s req false callers).events.drop s.events.length =
        [.incr, .fetchCall req.url]) ∧
    (Reach cfg s → ∀ e, s.execs[i]? = some e → e.phase = .net →
      0 < s.activeRequests →
      countEvent .decr ((netSettle s i o).events.drop s.events.length) = 1 ∧
      countEvent .warnNegative ((netSettle s i o).events.drop s.events.length) = 0) := by
  constructor
  · intro hpre
    rw [runTask_notAborted, if_pos (by simp [hpre])]
    show (s.events ++ [Event.incr, Event.fetchCall req.url]).drop s.events.length = _
    rw [drop_len_append]
  · intro hreach e hi hph hact
    have hwf := (Reach_inv hreach).2
    rw [netSettle_some s i o e hi hph]
    unfold settleFinally
    rw [guardedDecr_pos _ (by show s.activeRequests ≠ 0; omega)]
    set Y := log { removeExec (log s (.settled e.req.url o e.callers)) i with
      activeRequests := (removeExec (log s (.settled e.req.url o e.callers)) i).activeRequests - 1 } .decr with hY
    have hYev : Y.events = s.events ++ [.settled e.req.url o e.callers, .decr] := by
      rw [hY]
      simp [log, removeExec, List.append_assoc]
    have hYwf : QWF Y := QWF_of_eq s Y rfl rfl rfl hwf
    rcases hq : Y.queue with _ | q
    · rw [emitRCE_stutter Y (Or.inl hq)]
      rw [hYev, drop_len_append]
      constructor <;> simp [countEvent]
    · by_cases hp : Y.pauseQueue
      · rw [emitRCE_stutter Y (Or.inr (Or.inr hp))]
        rw [hYev, drop_len_append]
        constructor <;> simp [countEvent]
      · obtain ⟨hne, hsync, hnodup, hprops, hsort⟩ := hYwf.2 q hq
        rcases q with _ | ⟨⟨k2, e2⟩, qt2⟩
        · exact absurd rfl hne
        · have hkeys2 : Y.queueKeys = k2 :: keysOf qt2 := by simpa [keysOf] using hsync
          have hab2 : e2.aborted = false := (hprops (k2, e2) (by simp)).1
          rw [emitRCE_release Y k2 e2 qt2 hq hkeys2 hab2 (by simpa using hp)]
          by_cases hpre2 : Y.pre.isEmpty
          · rw [if_pos hpre2]
            constructor
            · show countEvent Event.decr
                ((Y.events ++ [Event.incr, Event.fetchCall e2.req.url]).drop
                  s.events.length) = 1
              rw [hYev, List.append_assoc, drop_len_append]
              simp [countEvent]
            · show countEvent Event.warnNegative
                ((Y.events ++ [Event.incr, Event.fetchCall e2.req.url]).drop
                  s.events.length) = 0
              rw [hYev, List.append_assoc, drop_len_append]
              simp [countEvent]
          · rw [if_neg hpre2]
            constructor
            · show countEvent Event.decr
                ((Y.events ++ [Event.incr] ++
                  (executePreResult Y.pre e2.req.url e2.req.options).1).drop
                    s.events.length) = 1
              rw [hYev]
              rw [List.append_assoc, List.append_assoc, drop_len_append]
              rw [show (executePreResult Y.pre e2.req.url e2.req.options).1 =
                ((Y.pre.enum.filter fun ir => !(matchFailed ir.2.pattern e2.req.url)).map
                  fun ir => Event.hookInvoked ir.1 e2.req.url) from rfl]
              rw [countEvent_append, countEvent_append,
                countEvent_map_hookInvoked _ _ _ (by intro idx h; exact absurd h (by simp))]
              simp [countEvent]
            · show countEvent Event.warnNegative
                ((Y.events ++ [Event.incr] ++
                  (executePreResult Y.pre e2.req.url e2.req.options).1).drop
                    s.events.length) = 0
              rw [hYev]
              rw [List.append_assoc, List.append_assoc, drop_len_append]
              rw [show (executePreResult Y.pre e2.req.url e2.req.options).1 =
                ((Y.pre.enum.filter fun ir => !(matchFailed ir.2.pattern e2.req.url)).map
                  fun ir => Event.hookInvoked ir.1 e2.req.url) from rfl]
              rw [countEvent_append, countEvent_append,
                countEvent_map_hookInvoked _ _ _ (by intro idx h; exact absurd h (by simp))]
              simp [countEvent]

/-- Witness for the amended C2: a fresh admission logs increment before
fetch, and settling the only in-flight execution decrements exactly
once. -/
theorem C2_amended_witness :
    ((runTask sInit1 reqA false 1).events.drop sInit1.events.length =
      [.incr, .fetchCall reqA.url]) ∧
    (countEvent .decr ((netSettle sA 0 .success).events.drop sA.events.length) = 1 ∧
     countEvent .warnNegative
       ((netSettle sA 0 .success).events.drop sA.events.length) = 0) :=
  ⟨(C2_amended cfgOne sInit1 reqA 1 0 .success).1 rfl,
   (C2_amended cfgOne sA reqA 1 0 .success).2
     (Reach.step (Reach.init make_cfgOne) (Step.fetch reqA))
     ⟨reqA, 1, .ok (), .net⟩ rfl rfl (by decide)⟩

/-- The pre-drain state of the C2/C10 counterexamples: A in flight, B
pending, limit 1. -/
def c2Pre : Sys := f_fetch (f_fetch sInit1 reqA) reqB

/-- The state after `emptyQueue()` with no pattern. -/
def c2Post : Sys := emptyQueue c2Pre none

/-- C2 (counterexample): draining the queue aborts the pending entry B
and invokes its thunk; the abort check in `#run` precedes the increment,
so B settles with `Aborted` having performed no increment, while the
`finally` block still decrements — and the synchronous completion cascade
re-invokes the same entry, attempting a second decrement that only the
zero-guard turns into a warning.  The events of the drain: no increment,
one decrement, one underflow warning, and two `Aborted` settlements of B.
The claim that an `Aborted` entry has exactly one paired increment and
decrement is therefore false. -/
theorem C2_counterexample :
    Reach cfgOne c2Post ∧
    countEvent .incr (c2Post.events.drop c2Pre.events.length) = 0 ∧
    countEvent .decr (c2Post.events.drop c2Pre.events.length) = 1 ∧
    countEvent .warnNegative (c2Post.events.drop c2Pre.events.length) = 1 ∧
    countEvent (.settled "B" (.failure "Aborted") 1)
      (c2Post.events.drop c2Pre.events.length) = 2 :=
  ⟨Reach.step
      (Reach.step (Reach.step (Reach.init make_cfgOne) (Step.fetch reqA))
        (Step.fetch reqB))
      (Step.empty none),
   by decide, by decide, by decide, by decide⟩

/-- The pre-drain state of the C10 counterexample: A in flight, B and C
pending, limit 1, nothing paused. -/
def c10Pre : Sys := f_fetch (f_fetch (f_fetch sInit1 reqA) reqB) reqC

/-- The state after `emptyQueue()` with no pattern. -/
def c10Post : Sys := emptyQueue c10Pre none

/-- C10 (counterexample): draining with no pattern is claimed to abort
every pending entry, so that each settles with an `Aborted` rejection and
no network call.  But the synchronous completion cascade of aborted entry
B re-enters the emitter during the loop, which releases entry C before
the iteration reaches (and aborts) it: C's thunk performs a real fetch
call and C never settles `Aborted`. -/
theorem C10_counterexample :
    Reach cfgOne c10Post ∧
    countEvent (.fetchCall "C") (c10Post.events.drop c10Pre.events.length) = 1 ∧
    countEvent (.settled "C" (.failure "Aborted") 1)
      (c10Post.events.drop c10Pre.events.length) = 0 ∧
    c10Post.queue = none ∧ c10Post.queueKeys = [] :=
  ⟨Reach.step
      (Reach.step
        (Reach.step (Reach.step (Reach.init make_cfgOne) (Step.fetch reqA))
          (Step.fetch reqB))
        (Step.fetch reqC))
      (Step.empty none),
   by decide, by decide, rfl, rfl⟩

/-- An aborted run while the queue is paused: the throw, the settlement,
the guarded decrement — and the emitter re-entry stutters. -/
theorem runTask_aborted_paused (s : Sys) (req : Request) (callers : Nat)
    (h : s.pauseQueue = true) :
    runTask s req true callers =
      guardedDecr (log s (.settled req.url (.failure "Aborted") callers)) := by
  show engine (2 * s.queueKeys.length + 2) (.run req true callers) s = _
  have h2 : 2 * s.queueKeys.length + 2 = (2 * s.queueKeys.length + 1) + 1 := rfl
  rw [h2, engine_run_aborted_succ]
  exact engine_emit_stutter _ _
    (Or.inr (Or.inr (by rw [guardedDecr_pauseQueue, log_pauseQueue]; exact h)))

/-- Marking a key that does not occur leaves the store unchanged. -/
theorem mark_id (q : List (String × Entry)) (k : String) (e' : Entry)
    (h : k ∉ keysOf q) :
    (q.map fun kv2 => (kv2.1, if kv2.1 == k then e' else kv2.2)) = q := by
  induction q with
  | nil => rfl
  | cons kv t ih =>
      simp only [keysOf, List.map_cons, List.mem_cons, not_or] at h
      have hb : (kv.1 == k) = false :=
        beq_eq_false_iff_ne.mpr (fun he => h.1 he.symm)
      simp only [List.map_cons, hb, Bool.false_eq_true, if_false]
      rw [ih (by simpa [keysOf] using h.2)]

/-- Marking rewrites exactly the unique binding under the key. -/
theorem mark_decompose (qpre qtail : List (String × Entry)) (k : String)
    (e e' : Entry) (hpre : k ∉ keysOf qpre) (htail : k ∉ keysOf qtail) :
    ((qpre ++ (k, e) :: qtail).map
        fun kv2 => (kv2.1, if kv2.1 == k then e' else kv2.2)) =
      qpre ++ (k, e') :: qtail := by
  rw [List.map_append, mark_id qpre k e' hpre, List.map_cons]
  simp only [beq_self_eq_true, if_true]
  rw [mark_id qtail k e' htail]

/-- The key stored at the boundary position of a split store. -/
theorem keysOf_getD_boundary (qpre : List (String × Entry)) (k : String)
    (e : Entry) (t : List (String × Entry)) :
    (keysOf (qpre ++ (k, e) :: t)).getD qpre.length "" = k := by
  induction qpre with
  | nil => rfl
  | cons kv tl ih => simpa [keysOf] using ih

/-- Lookup skips a prefix that does not contain the key. -/
theorem qlookup_append_right (qpre rest : List (String × Entry)) (k : String)
    (h : k ∉ keysOf qpre) :
    qlookup (qpre ++ rest) k = qlookup rest k := by
  induction qpre with
  | nil => rfl
  | cons kv t ih =>
      simp only [keysOf, List.map_cons, List.mem_cons, not_or] at h
      have hb : (kv.1 == k) = false :=
        beq_eq_false_iff_ne.mpr (fun he => h.1 he.symm)
      simp only [List.cons_append, qlookup, List.find?_cons, hb]
      exact ih (by simpa [keysOf] using h.2)

/-- Lookup finds the head binding. -/
theorem qlookup_cons_self (k : String) (e : Entry) (t : List (String × Entry)) :
    qlookup ((k, e) :: t) k = some e := by
  simp [qlookup, List.find?_cons]

/-- A non-aborted run touches only the counter, the log and the pool. -/
theorem runTask_notAborted_frame (s : Sys) (req : Request) (callers : Nat) :
    (runTask s req false callers).pauseQueue = s.pauseQueue ∧
    (runTask s req false callers).queue = s.queue ∧
    (runTask s req false callers).queueKeys = s.queueKeys := by
  rw [runTask_notAborted]
  split <;> exact ⟨rfl, rfl, rfl⟩

/-- Whether the drain loop aborts an entry: always when no pattern was
given, otherwise when the pattern matches the url recorded in the
entry's key object. -/
def drainAborts (pat : Option (String → Bool)) (e : Entry) : Bool :=
  match pat, keyUrl e.keyVal with
  | none, _ => true
  | some p, some u => p u
  | some _, none => false

/-- One iteration of the drain loop, as a fold step: mark the entry
aborted when the pattern applies, update the store in place, and invoke
the stored thunk. -/
def drainStep (pat : Option (String → Bool)) (s : Sys) (kv : String × Entry) : Sys :=
  let e' := if drainAborts pat kv.2 then {kv.2 with aborted := true} else kv.2
  let q' := (s.queue.getD []).map fun kv2 => (kv2.1, if kv2.1 == kv.1 then e' else kv2.2)
  let s1 := if drainAborts pat kv.2 then {s with queue := some q'} else s
  runTask s1 e'.req e'.aborted e'.callers

/-- Under a paused queue a drain step keeps the pause flag and the key
list, and rewrites at most the visited entry's binding in the store. -/
theorem drainStep_paused (pat : Option (String → Bool)) (s : Sys) (k : String)
    (e : Entry) (qpre qtail : List (String × Entry))
    (hp : s.pauseQueue = true)
    (hq : s.queue = some (qpre ++ (k, e) :: qtail))
    (hab : e.aborted = false)
    (hkpre : k ∉ keysOf qpre) (hktail : k ∉ keysOf qtail) :
    ∃ e2 : Entry,
      (drainStep pat s (k, e)).pauseQueue = true ∧
      (drainStep pat s (k, e)).queueKeys = s.queueKeys ∧
      (drainStep pat s (k, e)).queue = some (qpre ++ (k, e2) :: qtail) := by
  cases hdA : drainAborts pat e with
  | false =>
      refine ⟨e, ?_⟩
      unfold drainStep
      simp only [hdA, Bool.false_eq_true, if_false]
      have hfr := runTask_notAborted_frame s e.req e.callers
      rw [hab]
      exact ⟨hfr.1.trans hp, hfr.2.2, hfr.2.1.trans hq⟩
  | true =>
      refine ⟨{e with aborted := true}, ?_⟩
      unfold drainStep
      simp only [hdA, if_true]
      rw [runTask_aborted_paused _ _ _ (by exact hp)]
      refine ⟨by simp [hp], by simp, ?_⟩
      simp only [guardedDecr_queue, log_queue]
      rw [hq]
      simp only [Option.getD_some]
      rw [mark_decompose qpre qtail k e _ hkpre hktail]

/-- While the queue stays paused, the drain loop is exactly a left fold
of the drain step over the remaining suffix of the store. -/
theorem emptyQueueLoop_paused_fold (pat : Option (String → Bool))
    (qsuf : List (String × Entry)) :
    ∀ (fuel : Nat) (s : Sys) (qpre : List (String × Entry)),
      qsuf.length ≤ fuel →
      s.pauseQueue = true →
      s.queue = some (qpre ++ qsuf) →
      s.queueKeys = keysOf (qpre ++ qsuf) →
      (keysOf (qpre ++ qsuf)).Nodup →
      (∀ kv ∈ qsuf, kv.2.aborted = false) →
      emptyQueueLoop fuel pat qpre.length s = qsuf.foldl (drainStep pat) s := by
  induction qsuf with
  | nil =>
      intro fuel s qpre hf hp hq hk hn hab
      cases fuel with
      | zero => rfl
      | succ n =>
          rw [emptyQueueLoop]
          rw [if_neg ?hlt]
          case hlt =>
            rw [hk]
            simp [keysOf]
          rfl
  | cons kv qtail ih =>
      intro fuel s qpre hf hp hq hk hn hab
      obtain ⟨k, e⟩ := kv
      cases fuel with
      | zero => simp at hf
      | succ n =>
          have hn2 : (keysOf qpre ++ k :: keysOf qtail).Nodup := by
            simpa [keysOf] using hn
          rw [List.nodup_append] at hn2
          have hktail : k ∉ keysOf qtail := (List.nodup_cons.mp hn2.2.1).1
          have hkpre : k ∉ keysOf qpre :=
            fun hm => hn2.2.2 hm (List.mem_cons_self k (keysOf qtail))
          have hlt : qpre.length < s.queueKeys.length := by
            rw [hk]
            simp only [keysOf, List.map_append, List.length_append,
              List.length_map, List.map_cons, List.length_cons]
            omega
          have hkey : s.queueKeys.getD qpre.length "" = k := by
            rw [hk]
            exact keysOf_getD_boundary qpre k e qtail
          have hlookup : qlookup (qpre ++ (k, e) :: qtail) k = some e := by
            rw [qlookup_append_right _ _ _ hkpre]
            exact qlookup_cons_self k e qtail
          have hstep : emptyQueueLoop (n + 1) pat qpre.length s =
              emptyQueueLoop n pat (qpre.length + 1) (drainStep pat s (k, e)) := by
            conv_lhs => rw [emptyQueueLoop]
            rw [if_pos hlt, hq]
            simp only [hkey, hlookup]
            simp only [drainStep, drainAborts, hq, Option.getD_some]
          obtain ⟨e2, hdp, hdk, hdq⟩ :=
            drainStep_paused pat s k e qpre qtail hp hq
              (hab (k, e) (List.mem_cons_self _ _)) hkpre hktail
          have hlen1 : (qpre ++ [(k, e2)]).length = qpre.length + 1 := by simp
          rw [hstep, List.foldl_cons, ← hlen1]
          refine ih n (drainStep pat s (k, e)) (qpre ++ [(k, e2)]) ?_ hdp ?_ ?_ ?_ ?_
          · simp only [List.length_cons] at hf
            omega
          · rw [hdq]
            simp
          · rw [hdk, hk]
            simp [keysOf]
          · have hsame : keysOf ((qpre ++ [(k, e2)]) ++ qtail) =
                keysOf (qpre ++ (k, e) :: qtail) := by simp [keysOf]
            rw [hsame]
            exact hn
          · exact fun kv2 hm => hab kv2 (List.mem_cons_of_mem _ hm)

/-- C10 (amended): while the queue is paused, `emptyQueue(urlPattern)`
visits every pending entry exactly once, in insertion order — each visit
aborts the entry when the pattern matches its key's url (always, with no
pattern) and then invokes its stored thunk, so the whole drain is a left
fold of that per-entry step — and afterwards the store and the key list
are cleared.  (Unpaused, the completion cascade of an aborted entry can
instead release later entries into real fetches and skip them, see the
counterexample.) -/
theorem C10_amended (s : Sys) (pat : Option (String → Bool))
    (q : List (String × Entry))
    (hp : s.pauseQueue = true)
    (hq : s.queue = some q)
    (hk : s.queueKeys = keysOf q)
    (hn : (keysOf q).Nodup)
    (hab : ∀ kv ∈ q, kv.2.aborted = false) :
    emptyQueue s pat =
      { q.foldl (drainStep pat) s with queue := none, queueKeys := [] } := by
  unfold emptyQueue
  split
  · rename_i h0
    rw [h0] at hq
    exact absurd hq (by simp)
  · have hfold := emptyQueueLoop_paused_fold pat q (s.queueKeys.length + 1) s []
      (by rw [hk]; simp only [keysOf, List.length_map]; omega) hp
      (by simpa using hq) (by simpa using hk) (by simpa using hn) hab
    simp only [List.length_nil] at hfold
    show ({emptyQueueLoop (s.queueKeys.length + 1) pat 0 s with
            queue := none, queueKeys := []} : Sys) = _
    rw [hfold]

/-- Witness for C10's amended statement: the paused two-entry store is
drained as the fold of the per-entry step, then cleared. -/
theorem C10_amended_witness :
    emptyQueue (pauseQueueOp sQBC) none =
      { ([(kB, eB), (kC, eC)] : List (String × Entry)).foldl (drainStep none)
          (pauseQueueOp sQBC) with queue := none, queueKeys := [] } :=
  C10_amended (pauseQueueOp sQBC) none [(kB, eB), (kC, eC)] rfl rfl rfl
    (by decide) (by decide)

/-- Concrete evaluation of the default key builder on an option-less
request: the unset `options.method` path clobbers nothing, and the
trailing `options.body` assignment leaves an explicit `null`. -/
theorem keyBuilder_default_noOptions :
    keyBuilder defaultKeyBuilderParams
      (parametersOf { url := "B" }) =
    "\x7b\"url\":\"B\",\"options\":\x7b\"body\":null\x7d\x7d" := by decide

/-- Concrete evaluation of the default key builder with a `method`
option: the later `options.body` path resets the intermediate `options`
node, clobbering the previously copied method. -/
theorem keyBuilder_default_methodOnly :
    keyBuilder defaultKeyBuilderParams
      (parametersOf { url := "B",
                      options := .jobj (.fcons "method" (.jstr "GET") .fnil) }) =
    "\x7b\"url\":\"B\",\"options\":\x7b\x7d\x7d" := by decide

end Fetchq
